import Mathlib

/-!
Verification development for the stanza record codec (package `stanza`):
a reader and writer for the record-jar / stanza text format.

The definitions below are a shallow embedding of the Go source:
* the reader of `src/unnamed/part_000` (`readRune`, `skip`, `parseFieldName`,
  `parseFieldValue`, `parseRecord`, `Read`);
* the writer of `src/writer.go` (`SetFields`, `writeField`, `writeMap`, `Write`).

Byte/rune streams are modelled as `List Char`; records are association lists
`List (List Char × List Char)` in insertion order (the Go `map[string]string`
together with one admissible iteration order).  Looping functions take an
explicit fuel argument (recursion on the fuel); the exported wrappers
instantiate the fuel with `length + 1`, which is sufficient because every
loop iteration of the source consumes at least one rune.  `unicode.IsSpace`
and `strings.ToLower` are modelled on the Latin-1 / ASCII range
(`isSpace` covers exactly Go's Latin-1 white-space set; `Char.toLower`
is Lean's ASCII lower-casing).
-/

namespace Stanza

/-- Go `unicode.IsSpace` restricted to the Latin-1 range: space, tab,
newline, vertical tab, form feed, carriage return, NEL and NBSP. -/
def isSpace (c : Char) : Bool :=
  c = ' ' || c = '\t' || c = '\n' || c = '\x0b' || c = '\x0c' || c = '\r' ||
  c = '\u0085' || c = '\u00A0'

/-- Field names and values as rune lists. -/
abbrev Str := List Char

/-- A record under construction: fields in insertion order. -/
abbrev Rec := List (Str × Str)

/-- `readRune` of `src/unnamed/part_000` (lines 279-294): reads one rune,
folding `\r\n` into `\n`.  `none` models a read error (end of stream); the
Go code's `UnreadRune` after a failed `ReadRune` is a no-op, so a trailing
lone `\r` is consumed and the error is what the caller observes.  When `\r`
is followed by any other rune, the code returns that rune (the `\r` is
dropped, because the restore branch is guarded by `err != nil`). -/
def readRune : List Char → Option (Char × List Char)
  | [] => none
  | c :: rest =>
    if c = '\r' then
      match rest with
      | [] => none
      | c2 :: rest2 => some (c2, rest2)
    else some (c, rest)

/-- Fuelled body of `skip` (part_000 lines 296-307): read runes up to and
including `delim`, or until error. -/
def skipF (fuel : Nat) (delim : Char) (l : List Char) : Option (List Char) :=
  match fuel with
  | 0 => none
  | fuel + 1 =>
    match readRune l with
    | none => none
    | some (c, rest) => if c = delim then some rest else skipF fuel delim rest

/-- `skip` of part_000: the fuelled body at sufficient fuel. -/
def skip (delim : Char) (l : List Char) : Option (List Char) :=
  skipF (l.length + 1) delim l

/-- Result of the set-up loop of `parseFieldName` (part_000 lines 159-183). -/
inductive SetupRes where
  | err : SetupRes
  | eor (rest : List Char) (line : Nat) : SetupRes
  | go (rest : List Char) (line : Nat) : SetupRes
deriving DecidableEq

/-- Fuelled set-up loop of `parseFieldName`: skip white space, blank lines
and comment lines; a `%` line ends the record; otherwise the first
non-space rune is unread (modelled by consing it back) and the name is
read. -/
def fnSetupF (fuel : Nat) (l : List Char) (line : Nat) : SetupRes :=
  match fuel with
  | 0 => .err
  | fuel + 1 =>
    match readRune l with
    | none => .err
    | some (c, rest) =>
      if isSpace c then
        if c = '\n' then fnSetupF fuel rest (line + 1) else fnSetupF fuel rest line
      else if c = '#' then
        match skip '\n' rest with
        | none => .err
        | some rest2 => fnSetupF fuel rest2 (line + 1)
      else if c = '%' then
        .eor ((skip '\n' rest).getD []) (line + 1)
      else .go (c :: rest) line

/-- Set-up loop of `parseFieldName` at sufficient fuel. -/
def fnSetup (l : List Char) (line : Nat) : SetupRes :=
  fnSetupF (l.length + 1) l line

/-- Fuelled name-reading loop of `parseFieldName` (part_000 lines 187-211):
stop at `:` or newline; runs of white space inside the name are replaced
by a single `-`. -/
def fnLoopF (fuel : Nat) (l : List Char) (line : Nat) (b : Str) (space : Bool) :
    Option (Str × Char × List Char × Nat) :=
  match fuel with
  | 0 => none
  | fuel + 1 =>
    match readRune l with
    | none => none
    | some (c, rest) =>
      if c = ':' then some (b, ':', rest, line)
      else if c = '\n' then some (b, '\n', rest, line + 1)
      else if isSpace c then fnLoopF fuel rest line b true
      else if space then fnLoopF fuel rest line (b ++ ['-', c]) false
      else fnLoopF fuel rest line (b ++ [c]) false

/-- Name-reading loop at sufficient fuel. -/
def fnLoop (l : List Char) (line : Nat) (b : Str) (space : Bool) :
    Option (Str × Char × List Char × Nat) :=
  fnLoopF (l.length + 1) l line b space

/-- `parseFieldName` of part_000 (lines 156-213).  The result is the
lower-cased field name, the delimiter (`:`, `\n`, or `%` for
end-of-record), the remaining stream and the line counter; `none` is a
read error. -/
def parseFieldName (l : List Char) (line : Nat) :
    Option (Str × Char × List Char × Nat) :=
  match fnSetup l line with
  | .err => none
  | .eor rest ln => some ([], '%', rest, ln)
  | .go rest ln =>
    match fnLoop rest ln [] false with
    | none => none
    | some (b, d, rest2, ln2) => some (b.map Char.toLower, d, rest2, ln2)

/-- Fuelled body of `parseFieldValue` (part_000 lines 215-277).  The result
is `(value, end, rest, line)`: `end` is true when the end of the record was
found (explicit `%` or a read error).  The flags mirror the Go locals
`space`, `first`, `line` (the latter called `lineF` here). -/
def parseFieldValueF (fuel : Nat) (l : List Char) (line : Nat) (b : Str)
    (space first lineF : Bool) : Str × Bool × List Char × Nat :=
  match fuel with
  | 0 => (b, true, [], line)
  | fuel + 1 =>
    match readRune l with
    | none => (b, true, [], line)
    | some (c, rest) =>
      if c = '\n' then
        match readRune rest with
        | none => (b, true, [], line + 1)
        | some (c2, rest2) =>
          if c2 = '#' then
            match skip '\n' rest2 with
            | none => (b, true, [], line + 2)
            | some rest3 => parseFieldValueF fuel rest3 (line + 2) b false first true
          else if c2 = '%' then
            (b, true, (skip '\n' rest2).getD [], line + 2)
          else if c2 = '\n' then
            parseFieldValueF fuel ('\n' :: rest2) (line + 1) b false first true
          else if isSpace c2 then
            parseFieldValueF fuel rest2 (line + 1) b false first true
          else
            (b, false, c2 :: rest2, line + 1)
      else if isSpace c then
        parseFieldValueF fuel rest line b true first lineF
      else
        parseFieldValueF fuel rest line
          (if lineF then b ++ ['\n', c]
           else if space then (if first then b ++ [c] else b ++ [' ', c])
           else b ++ [c])
          false false false

/-- `parseFieldValue` of part_000 at sufficient fuel, with the initial
flag values of the source (`space, first, line := false, true, false`). -/
def parseFieldValue (l : List Char) (line : Nat) : Str × Bool × List Char × Nat :=
  parseFieldValueF (l.length + 1) l line [] false true false

/-- Errors of the reader: end of stream, or a duplicated field (with the
current line number and the normalized field name), mirroring
`errors.Errorf("line: %d: duplicated field %q", r.line, f)`. -/
inductive PErr where
  | eofErr : PErr
  | dup (line : Nat) (field : Str) : PErr
deriving DecidableEq

/-- Membership test of a key in the record being built (the Go
`_, dup := record[f]`). -/
def hasKey : Rec → Str → Bool
  | [], _ => false
  | (k, _) :: r, f => k = f || hasKey r f

/-- Fuelled field loop of `parseRecord` (part_000 lines 119-149).  `reg` is
the session-wide field registry (`r.fields` guarded by `r.fok`). -/
def parseRecordLoopF (fuel : Nat) (l : List Char) (line : Nat) (rec : Rec)
    (reg : List Str) : Except PErr (Rec × List Char × Nat × List Str) :=
  match fuel with
  | 0 => .error .eofErr
  | fuel + 1 =>
    match parseFieldName l line with
    | none => if rec = [] then .error .eofErr else .ok (rec, [], line, reg)
    | some (f, d, rest, ln) =>
      if d = '\n' then parseRecordLoopF fuel rest ln rec reg
      else if d = '%' then .ok (rec, rest, ln, reg)
      else
        match parseFieldValue rest ln with
        | (v, e, rest2, ln2) =>
          if f ≠ [] ∧ v ≠ [] then
            if hasKey rec f then .error (.dup ln2 f)
            else
              let rec2 := rec ++ [(f, v)]
              let reg2 := if f ∈ reg then reg else reg ++ [f]
              if e then .ok (rec2, rest2, ln2, reg2)
              else parseRecordLoopF fuel rest2 ln2 rec2 reg2
          else
            if e then .ok (rec, rest2, ln2, reg)
            else parseRecordLoopF fuel rest2 ln2 rec reg

/-- `parseRecord` of part_000: the field loop at sufficient fuel, then the
final `len(record) == 0` check (`none` models Go's `(nil, nil)` result). -/
def parseRecord (l : List Char) (line : Nat) (reg : List Str) :
    Except PErr (Option Rec × List Char × Nat × List Str) :=
  match parseRecordLoopF (l.length + 1) l line [] reg with
  | .error e => .error e
  | .ok (rec, rest, ln, reg2) =>
    .ok ((if rec = [] then none else some rec), rest, ln, reg2)

/-- Fuelled loop of `Read` (part_000 lines 105-116): retry `parseRecord`
until a non-empty record or an error. -/
def ReadF (fuel : Nat) (l : List Char) (line : Nat) (reg : List Str) :
    Except PErr (Rec × List Char × Nat × List Str) :=
  match fuel with
  | 0 => .error .eofErr
  | fuel + 1 =>
    match parseRecord l line reg with
    | .error e => .error e
    | .ok (none, rest, ln, reg2) => ReadF fuel rest ln reg2
    | .ok (some rec, rest, ln, reg2) => .ok (rec, rest, ln, reg2)

/-- `Read` of part_000 at sufficient fuel.  A fresh reader starts at
`line = 1` with an empty registry (`NewReader`). -/
def Read (l : List Char) (line : Nat) (reg : List Str) :
    Except PErr (Rec × List Char × Nat × List Str) :=
  ReadF (l.length + 1) l line reg

/-- Helper of `goFields`: accumulate the current word (reversed). -/
def goFieldsAux : List Char → List Char → List Str
  | [], cur => if cur = [] then [] else [cur.reverse]
  | c :: rest, cur =>
    if isSpace c then
      if cur = [] then goFieldsAux rest [] else cur.reverse :: goFieldsAux rest []
    else goFieldsAux rest (c :: cur)

/-- Go `strings.Fields`: the maximal runs of non-space runes. -/
def goFields (l : Str) : List Str := goFieldsAux l []

/-- Go `strings.TrimSpace` on rune lists. -/
def trimSpace (l : Str) : Str :=
  ((l.dropWhile isSpace).reverse.dropWhile isSpace).reverse

/-- The writer's field-name normalization
`strings.ToLower(strings.Join(strings.Fields(f), "-"))`
(writer.go lines 44 and 100). -/
def normField (f : Str) : Str :=
  (List.intercalate ['-'] (goFields f)).map Char.toLower

/-- Byte length of the UTF-8 encoding of a string (Go `len(f)` on a
`string`), used by the `len(f) < 6` separator choice of `writeField`. -/
def utf8Len (l : Str) : Nat :=
  (l.map (fun c =>
    if c.toNat < 128 then 1
    else if c.toNat < 2048 then 2
    else if c.toNat < 65536 then 3
    else 4)).sum

/-- The value loop of `writeField` (writer.go lines 142-150): a `\r` in the
value emits nothing, a `\n` emits `\r\n\t`, every other rune is copied. -/
def encodeVal : Str → Str
  | [] => []
  | c :: v =>
    (if c = '\r' then [] else if c = '\n' then ['\r', '\n', '\t'] else [c]) ++
      encodeVal v

/-- `writeField` of writer.go (lines 121-156): emitted bytes and the
increment of the field counter `w.fc`. -/
def writeField (forceEmpty : Bool) (f v : Str) : Str × Nat :=
  let v := trimSpace v
  if v = [] then
    if forceEmpty then (f ++ ['\r', '\n'], 1) else ([], 0)
  else
    (f ++ (if utf8Len f < 6 then [':', '\t'] else [':', ' ']) ++
      encodeVal v ++ ['\r', '\n'], 1)

/-- Field loop of `writeMap` (writer.go lines 98-111): normalize each key,
skip keys that normalize to empty or repeat an already-written normalized
key, and write the rest in the iteration order given by the list. -/
def writeMapAux (forceEmpty : Bool) : Rec → List Str → Str × Nat
  | [], _ => ([], 0)
  | (f, v) :: rest, ok =>
    let fn := normField f
    if fn = [] then writeMapAux forceEmpty rest ok
    else if fn ∈ ok then writeMapAux forceEmpty rest ok
    else
      let p := writeField forceEmpty fn v
      let q := writeMapAux forceEmpty rest (fn :: ok)
      (p.1 ++ q.1, p.2 + q.2)

/-- `writeMap` of writer.go (lines 97-118): the record's own fields in the
given iteration order, then the end-of-record line if at least one field
was written. -/
def writeMap (forceEmpty : Bool) (rec : Rec) : Str :=
  let p := writeMapAux forceEmpty rec []
  if p.2 > 0 then p.1 ++ ['%', '%', '\r', '\n'] else p.1

/-- Go `record[f]` for the association-list record: the stored value, or
the empty string when the key is absent. -/
def recGet : Rec → Str → Str
  | [], _ => []
  | (k, v) :: rest, f => if k = f then v else recGet rest f

/-- The configured-fields loop of `Write` (writer.go lines 83-87). -/
def writeFieldsList (forceEmpty : Bool) (fields : List Str) (rec : Rec) : Str × Nat :=
  match fields with
  | [] => ([], 0)
  | f :: fs =>
    let p := writeField forceEmpty f (recGet rec f)
    let q := writeFieldsList forceEmpty fs rec
    (p.1 ++ q.1, p.2 + q.2)

/-- `Write` of writer.go (lines 78-94): with no configured fields fall back
to `writeMap`, otherwise write the configured fields in order and the
end-of-record line if at least one field was written. -/
def Write (forceEmpty : Bool) (fields : List Str) (rec : Rec) : Str :=
  if fields = [] then writeMap forceEmpty rec
  else
    let p := writeFieldsList forceEmpty fields rec
    if p.2 > 0 then p.1 ++ ['%', '%', '\r', '\n'] else p.1

/-- Loop of `SetFields` (writer.go lines 40-59): entries that normalize to
empty are skipped, an entry changed by normalization is a configuration
error, duplicates are dropped keeping the first occurrence. -/
def SetFieldsAux : List Str → List Str → List Str → Except Str (List Str)
  | [], _, nf => .ok nf
  | f :: fs, ok, nf =>
    let cp := normField f
    if cp = [] then SetFieldsAux fs ok nf
    else if cp ≠ f then .error f
    else if f ∈ ok then SetFieldsAux fs ok nf
    else SetFieldsAux fs (f :: ok) (nf ++ [f])

/-- `SetFields` of writer.go: on success, the resulting emission order. -/
def SetFields (fields : List Str) : Except Str (List Str) :=
  SetFieldsAux fields [] []

end Stanza

namespace Stanza

/-! ### Character-level facts -/

theorem char_toNat_ofNat (n : Nat) (h : n.isValidChar) : (Char.ofNat n).toNat = n := by
  unfold Char.ofNat
  rw [dif_pos h]
  rfl

theorem toNat_toLower (c : Char) :
    c.toLower.toNat = if 65 ≤ c.toNat ∧ c.toNat ≤ 90 then c.toNat + 32 else c.toNat := by
  unfold Char.toLower
  split
  · next h =>
    rw [if_pos h]
    exact char_toNat_ofNat _ (Or.inl (by omega))
  · next h =>
    rw [if_neg h]

theorem char_eq_iff_toNat (a b : Char) : a = b ↔ a.toNat = b.toNat := by
  constructor
  · intro h
    rw [h]
  · intro h
    apply Char.eq_of_val_eq
    apply UInt32.eq_of_toBitVec_eq
    have h2 := congrArg (fun m => BitVec.ofNat 32 m) h
    simpa [Char.toNat, UInt32.toNat] using h2

theorem isSpace_iff_toNat (c : Char) :
    isSpace c = true ↔ (c.toNat = 32 ∨ c.toNat = 9 ∨ c.toNat = 10 ∨ c.toNat = 11 ∨
      c.toNat = 12 ∨ c.toNat = 13 ∨ c.toNat = 133 ∨ c.toNat = 160) := by
  unfold isSpace
  simp only [Bool.or_eq_true, decide_eq_true_eq]
  rw [char_eq_iff_toNat, char_eq_iff_toNat, char_eq_iff_toNat, char_eq_iff_toNat,
    char_eq_iff_toNat, char_eq_iff_toNat, char_eq_iff_toNat, char_eq_iff_toNat]
  have h1 : (' ').toNat = 32 := rfl
  have h2 : ('\t').toNat = 9 := rfl
  have h3 : ('\n').toNat = 10 := rfl
  have h4 : ('\x0b').toNat = 11 := rfl
  have h5 : ('\x0c').toNat = 12 := rfl
  have h6 : ('\r').toNat = 13 := rfl
  have h7 : ('\u0085').toNat = 133 := rfl
  have h8 : ('\u00A0').toNat = 160 := rfl
  rw [h1, h2, h3, h4, h5, h6, h7, h8]
  tauto

theorem toLower_idem (c : Char) : c.toLower.toLower = c.toLower := by
  rw [char_eq_iff_toNat, toNat_toLower, toNat_toLower]
  split_ifs <;> omega

theorem toLower_isSpace (c : Char) (h : isSpace c = false) : isSpace c.toLower = false := by
  by_contra hcon
  have h2 : isSpace c.toLower = true := by
    cases h3 : isSpace c.toLower
    · exact absurd h3 hcon
    · rfl
  rw [isSpace_iff_toNat, toNat_toLower] at h2
  by_cases hc : 65 ≤ c.toNat ∧ c.toNat ≤ 90
  · rw [if_pos hc] at h2
    omega
  · rw [if_neg hc] at h2
    rw [← isSpace_iff_toNat] at h2
    rw [h] at h2
    exact Bool.false_ne_true h2

theorem toLower_eq_low (c d : Char) (h : c.toLower = d) (hd : d.toNat < 97) : c = d := by
  rw [char_eq_iff_toNat] at h ⊢
  rw [toNat_toLower] at h
  by_cases hc : 65 ≤ c.toNat ∧ c.toNat ≤ 90
  · rw [if_pos hc] at h
    omega
  · rwa [if_neg hc] at h

end Stanza

namespace Stanza

/-! ### Fuel infrastructure -/

theorem readRune_length {l : List Char} {c : Char} {r : List Char}
    (h : readRune l = some (c, r)) : r.length < l.length := by
  match l with
  | [] => simp [readRune] at h
  | a :: rest =>
    simp only [readRune] at h
    by_cases ha : a = '\r'
    · rw [if_pos ha] at h
      match rest with
      | [] => simp at h
      | b :: rest2 =>
        simp only [Option.some.injEq, Prod.mk.injEq] at h
        obtain ⟨h1, h2⟩ := h
        subst h2
        simp
        omega
    · rw [if_neg ha] at h
      simp only [Option.some.injEq, Prod.mk.injEq] at h
      obtain ⟨h1, h2⟩ := h
      subst h2
      simp

theorem skipF_length {fuel : Nat} {d : Char} {l r : List Char}
    (h : skipF fuel d l = some r) : r.length < l.length := by
  induction fuel generalizing l with
  | zero => simp [skipF] at h
  | succ k ih =>
    cases hr : readRune l with
    | none => simp [skipF, hr] at h
    | some p =>
      obtain ⟨c, rest⟩ := p
      simp only [skipF, hr] at h
      have hlen := readRune_length hr
      by_cases hc : c = d
      · rw [if_pos hc] at h
        injection h with h2
        subst h2
        exact hlen
      · rw [if_neg hc] at h
        have := ih h
        omega

theorem skip_length {d : Char} {l r : List Char} (h : skip d l = some r) :
    r.length < l.length :=
  skipF_length h

end Stanza

namespace Stanza

theorem pfv_ext {fuel1 fuel2 : Nat} {l : List Char} {line : Nat} {b : Str}
    {sp fi lf : Bool} (h1 : l.length < fuel1) (h2 : l.length < fuel2) :
    parseFieldValueF fuel1 l line b sp fi lf = parseFieldValueF fuel2 l line b sp fi lf := by
  induction fuel1 generalizing fuel2 l line b sp fi lf with
  | zero => omega
  | succ k ih =>
    cases fuel2 with
    | zero => omega
    | succ m =>
      cases hr : readRune l with
      | none => simp only [parseFieldValueF, hr]
      | some p =>
        obtain ⟨c, rest⟩ := p
        have hlr := readRune_length hr
        simp only [parseFieldValueF, hr]
        by_cases hc : c = '\n'
        · rw [if_pos hc, if_pos hc]
          cases hr2 : readRune rest with
          | none => simp only
          | some q =>
            obtain ⟨c2, rest2⟩ := q
            have hlr2 := readRune_length hr2
            simp only
            by_cases hc2 : c2 = '#'
            · rw [if_pos hc2, if_pos hc2]
              cases hsk : skip '\n' rest2 with
              | none => simp only
              | some rest3 =>
                have hls := skip_length hsk
                simp only
                exact ih (by omega) (by omega)
            · rw [if_neg hc2, if_neg hc2]
              by_cases hp : c2 = '%'
              · rw [if_pos hp, if_pos hp]
              · rw [if_neg hp, if_neg hp]
                by_cases hn2 : c2 = '\n'
                · rw [if_pos hn2, if_pos hn2]
                  apply ih <;> simp <;> omega
                · rw [if_neg hn2, if_neg hn2]
                  by_cases hs2 : isSpace c2
                  · rw [if_pos hs2, if_pos hs2]
                    exact ih (by omega) (by omega)
                  · rw [if_neg hs2, if_neg hs2]
        · rw [if_neg hc, if_neg hc]
          by_cases hs : isSpace c
          · rw [if_pos hs, if_pos hs]
            exact ih (by omega) (by omega)
          · rw [if_neg hs, if_neg hs]
            exact ih (by omega) (by omega)

end Stanza

namespace Stanza

theorem isSpace_false_ne {c : Char} (h : isSpace c = false) :
    c ≠ ' ' ∧ c ≠ '\t' ∧ c ≠ '\n' ∧ c ≠ '\r' := by
  refine ⟨?_, ?_, ?_, ?_⟩ <;> intro he <;> subst he <;> simp [isSpace] at h

theorem readRune_cons {c : Char} {l : List Char} (h : c ≠ '\r') :
    readRune (c :: l) = some (c, l) := by
  simp [readRune, h]

theorem pfv_step_content {c : Char} (hc : isSpace c = false) {k : Nat}
    {l : List Char} {line : Nat} {b : Str} {sp fi lf : Bool} :
    parseFieldValueF (k + 1) (c :: l) line b sp fi lf
      = parseFieldValueF k l line
          (if lf then b ++ ['\n', c]
           else if sp then (if fi then b ++ [c] else b ++ [' ', c])
           else b ++ [c])
          false false false := by
  obtain ⟨h1, h2, h3, h4⟩ := isSpace_false_ne hc
  simp only [parseFieldValueF, readRune_cons h4, if_neg h3, hc, Bool.false_eq_true,
    if_false]

theorem pfv_step_space {c : Char} (hc : isSpace c = true) (h3 : c ≠ '\n')
    (h4 : c ≠ '\r') {k : Nat} {l : List Char} {line : Nat} {b : Str}
    {sp fi lf : Bool} :
    parseFieldValueF (k + 1) (c :: l) line b sp fi lf
      = parseFieldValueF k l line b true fi lf := by
  simp only [parseFieldValueF, readRune_cons h4, if_neg h3, hc, if_true]

theorem pfv_lineend_endfield {l m m2 : List Char} {c2 : Char}
    (hr : readRune l = some ('\n', m)) (hr2 : readRune m = some (c2, m2))
    (h1 : c2 ≠ '#') (h2 : c2 ≠ '%') (h3 : c2 ≠ '\n') (h4 : isSpace c2 = false)
    {k line : Nat} {b : Str} {sp fi lf : Bool} :
    parseFieldValueF (k + 1) l line b sp fi lf = (b, false, c2 :: m2, line + 1) := by
  simp only [parseFieldValueF, hr, if_pos rfl, hr2, if_neg h1, if_neg h2, if_neg h3,
    h4, Bool.false_eq_true, if_false]
  rw [if_pos trivial]

theorem pfv_lineend_cont {l m m2 : List Char} {c2 : Char}
    (hr : readRune l = some ('\n', m)) (hr2 : readRune m = some (c2, m2))
    (h1 : c2 ≠ '#') (h2 : c2 ≠ '%') (h3 : c2 ≠ '\n') (h4 : isSpace c2 = true)
    {k line : Nat} {b : Str} {sp fi lf : Bool} :
    parseFieldValueF (k + 1) l line b sp fi lf
      = parseFieldValueF k m2 (line + 1) b false fi true := by
  simp only [parseFieldValueF, hr, if_pos rfl, hr2, if_neg h1, if_neg h2, if_neg h3,
    h4, if_true]

theorem pfv_lineend_eor {l m m2 : List Char}
    (hr : readRune l = some ('\n', m)) (hr2 : readRune m = some ('%', m2))
    {k line : Nat} {b : Str} {sp fi lf : Bool} :
    parseFieldValueF (k + 1) l line b sp fi lf
      = (b, true, (skip '\n' m2).getD [], line + 2) := by
  have h1 : ('%' : Char) ≠ '#' := by decide
  simp only [parseFieldValueF, hr, if_pos rfl, hr2, if_neg h1, if_pos rfl]
  rw [if_pos trivial, if_pos trivial]

theorem pfv_words {x : Str} (hx : ∀ c ∈ x, isSpace c = false) :
    ∀ {fuel : Nat} {l : List Char} {line : Nat} {b : Str},
    x.length + l.length < fuel →
    parseFieldValueF fuel (x ++ l) line b false false false
      = parseFieldValueF (l.length + 1) l line (b ++ x) false false false := by
  induction x with
  | nil =>
    intro fuel l line b hf
    simp only [List.nil_append, List.append_nil]
    exact pfv_ext (by simpa using hf) (by omega)
  | cons c x' ih =>
    intro fuel l line b hf
    match fuel with
    | 0 => omega
    | k + 1 =>
      have hc : isSpace c = false := hx c (by simp)
      rw [List.cons_append, pfv_step_content hc]
      simp only [if_neg (by simp : ¬False), Bool.false_eq_true, if_false]
      have hstep : parseFieldValueF k (x' ++ l) line (b ++ [c]) false false false
          = parseFieldValueF (l.length + 1) l line ((b ++ [c]) ++ x') false false false :=
        ih (fun d hd => hx d (by simp [hd])) (by simp at hf ⊢; omega)
      rw [hstep]
      simp

end Stanza

namespace Stanza

/-! ### Writer lemmas and easy claims -/

theorem encodeVal_filter_cr (v : Str) :
    encodeVal (v.filter (fun c => c != '\r')) = encodeVal v := by
  induction v with
  | nil => rfl
  | cons c w ih =>
    by_cases hc : c = '\r'
    · subst hc
      simp [List.filter_cons, encodeVal, ih]
    · simp [List.filter_cons, hc, encodeVal, ih]

/-- The emission schedule of `writeMap`: the record's own fields in the
given iteration order, each key normalized, entries whose normalized key is
empty or repeats an earlier normalized key dropped.  This is the behaviour
the amended claim C3 describes. -/
def canonFields : Rec → List Str → Rec
  | [], _ => []
  | (f, v) :: rest, seen =>
    let fn := normField f
    if fn = [] then canonFields rest seen
    else if fn ∈ seen then canonFields rest seen
    else (fn, v) :: canonFields rest (fn :: seen)

/-- `writeMap` described through its emission schedule. -/
def writeMapVia (fe : Bool) (rec : Rec) : Str :=
  let outs := (canonFields rec []).map (fun p => writeField fe p.1 p.2)
  (outs.map Prod.fst).flatten ++
    (if 0 < (outs.map Prod.snd).sum then ['%', '%', '\r', '\n'] else [])

theorem writeMapAux_eq (fe : Bool) :
    ∀ (rec : Rec) (ok : List Str),
    writeMapAux fe rec ok =
      ((((canonFields rec ok).map (fun p => writeField fe p.1 p.2)).map Prod.fst).flatten,
       (((canonFields rec ok).map (fun p => writeField fe p.1 p.2)).map Prod.snd).sum) := by
  intro rec
  induction rec with
  | nil => intro ok; rfl
  | cons p rest ih =>
    intro ok
    obtain ⟨f, v⟩ := p
    simp only [writeMapAux, canonFields]
    by_cases h1 : normField f = []
    · simp only [h1, if_pos rfl, ih, if_pos trivial]
    · rw [if_neg h1, if_neg h1]
      by_cases h2 : normField f ∈ ok
      · rw [if_pos h2, if_pos h2, ih]
      · rw [if_neg h2, if_neg h2, ih]
        simp

end Stanza

namespace Stanza

/-! ### SetFields characterization -/

theorem SetFieldsAux_error_iff :
    ∀ (l : List Str) (ok nf : List Str),
    (∃ e, SetFieldsAux l ok nf = .error e) ↔
      ∃ f ∈ l, normField f ≠ [] ∧ normField f ≠ f := by
  intro l
  induction l with
  | nil => intro ok nf; simp [SetFieldsAux]
  | cons f fs ih =>
    intro ok nf
    simp only [SetFieldsAux]
    by_cases h1 : normField f = []
    · rw [if_pos h1]
      rw [ih]
      constructor
      · rintro ⟨g, hg, hprops⟩
        exact ⟨g, by simp [hg], hprops⟩
      · rintro ⟨g, hg, hprops⟩
        rcases List.mem_cons.mp hg with hgf | hgfs
        · subst hgf
          exact absurd h1 hprops.1
        · exact ⟨g, hgfs, hprops⟩
    · rw [if_neg h1]
      by_cases h2 : normField f ≠ f
      · rw [if_pos h2]
        constructor
        · intro _
          exact ⟨f, by simp, h1, h2⟩
        · intro _
          exact ⟨f, rfl⟩
      · rw [if_neg h2]
        push_neg at h2
        have hrhs : ∀ ok2 nf2, (∃ e, SetFieldsAux fs ok2 nf2 = .error e) ↔
            ∃ g ∈ f :: fs, normField g ≠ [] ∧ normField g ≠ g := by
          intro ok2 nf2
          rw [ih]
          constructor
          · rintro ⟨g, hg, hprops⟩
            exact ⟨g, by simp [hg], hprops⟩
          · rintro ⟨g, hg, hprops⟩
            rcases List.mem_cons.mp hg with hgf | hgfs
            · subst hgf
              exact absurd h2 hprops.2
            · exact ⟨g, hgfs, hprops⟩
        by_cases h3 : f ∈ ok
        · rw [if_pos h3]
          exact hrhs ok nf
        · rw [if_neg h3]
          exact hrhs (f :: ok) (nf ++ [f])

end Stanza

namespace Stanza

theorem SetFieldsAux_ok :
    ∀ (l : List Str) (ok nf r : List Str), SetFieldsAux l ok nf = .ok r →
    ∃ s, r = nf ++ s ∧ s.Sublist l ∧ s.Nodup ∧
      ∀ g, g ∈ s ↔ (g ∈ l ∧ normField g = g ∧ g ≠ [] ∧ g ∉ ok) := by
  intro l
  induction l with
  | nil =>
    intro ok nf r h
    simp only [SetFieldsAux, Except.ok.injEq] at h
    subst h
    exact ⟨[], by simp⟩
  | cons f fs ih =>
    intro ok nf r h
    simp only [SetFieldsAux] at h
    by_cases h1 : normField f = []
    · rw [if_pos h1] at h
      obtain ⟨s, hs1, hs2, hs3, hs4⟩ := ih ok nf r h
      refine ⟨s, hs1, hs2.cons _, hs3, ?_⟩
      intro g
      rw [hs4 g]
      constructor
      · rintro ⟨hg, hrest⟩
        exact ⟨by simp [hg], hrest⟩
      · rintro ⟨hg, hn, hne, hok⟩
        rcases List.mem_cons.mp hg with hgf | hgfs
        · subst hgf
          rw [hn] at h1
          exact absurd h1 hne
        · exact ⟨hgfs, hn, hne, hok⟩
    · rw [if_neg h1] at h
      by_cases h2 : normField f ≠ f
      · rw [if_pos h2] at h
        exact absurd h (by simp)
      · rw [if_neg h2] at h
        push_neg at h2
        by_cases h3 : f ∈ ok
        · rw [if_pos h3] at h
          obtain ⟨s, hs1, hs2, hs3, hs4⟩ := ih ok nf r h
          refine ⟨s, hs1, hs2.cons _, hs3, ?_⟩
          intro g
          rw [hs4 g]
          constructor
          · rintro ⟨hg, hrest⟩
            exact ⟨by simp [hg], hrest⟩
          · rintro ⟨hg, hn, hne, hok⟩
            rcases List.mem_cons.mp hg with hgf | hgfs
            · subst hgf
              exact absurd h3 hok
            · exact ⟨hgfs, hn, hne, hok⟩
        · rw [if_neg h3] at h
          obtain ⟨s, hs1, hs2, hs3, hs4⟩ := ih (f :: ok) (nf ++ [f]) r h
          have hfs : f ∉ s := by
            intro hmem
            exact ((hs4 f).mp hmem).2.2.2 (by simp)
          refine ⟨f :: s, by simp [hs1], hs2.cons₂ _, hs3.cons hfs, ?_⟩
          intro g
          constructor
          · intro hg
            rcases List.mem_cons.mp hg with hgf | hgs
            · subst hgf
              exact ⟨by simp, h2, fun hfe => h1 (by rw [hfe] at h2; exact h2.symm ▸ hfe ▸ rfl), h3⟩
            · obtain ⟨hg1, hg2, hg3, hg4⟩ := (hs4 g).mp hgs
              refine ⟨by simp [hg1], hg2, hg3, fun hok2 => hg4 (by simp [hok2])⟩
          · rintro ⟨hg, hn, hne, hok⟩
            rcases List.mem_cons.mp hg with hgf | hgfs
            · subst hgf
              simp
            · by_cases hgf2 : g = f
              · subst hgf2
                simp
              · have : g ∈ s := (hs4 g).mpr ⟨hgfs, hn, hne, by simp [hok, hgf2]⟩
                simp [this]

end Stanza

namespace Stanza

theorem parseRecord_some {l : List Char} {line : Nat} {reg : List Str} {rec : Rec}
    {rest : List Char} {ln : Nat} {rg : List Str}
    (h : parseRecord l line reg = .ok (some rec, rest, ln, rg)) : rec ≠ [] := by
  unfold parseRecord at h
  cases hp : parseRecordLoopF (l.length + 1) l line [] reg with
  | error e => rw [hp] at h; exact absurd h (by simp)
  | ok q =>
    obtain ⟨rec1, rest1, ln1, rg1⟩ := q
    rw [hp] at h
    simp only [Except.ok.injEq, Prod.mk.injEq] at h
    obtain ⟨h2, _⟩ := h
    by_cases h1 : rec1 = []
    · rw [if_pos h1] at h2
      exact absurd h2 (by simp)
    · rw [if_neg h1] at h2
      injection h2 with h3
      subst h3
      exact h1

theorem ReadF_ok {fuel : Nat} {l : List Char} {line : Nat} {reg : List Str}
    {rec : Rec} {rest : List Char} {ln : Nat} {rg : List Str}
    (h : ReadF fuel l line reg = .ok (rec, rest, ln, rg)) : rec ≠ [] := by
  induction fuel generalizing l line reg with
  | zero => simp [ReadF] at h
  | succ k ih =>
    unfold ReadF at h
    cases hp : parseRecord l line reg with
    | error e => rw [hp] at h; exact absurd h (by simp)
    | ok q =>
      obtain ⟨opt, rest1, ln1, rg1⟩ := q
      rw [hp] at h
      cases opt with
      | none => exact ih h
      | some rec1 =>
        simp only [Except.ok.injEq, Prod.mk.injEq] at h
        obtain ⟨h1, _⟩ := h
        subst h1
        exact parseRecord_some hp

/-! ### Claim theorems (first batch) -/

/-- C5: the spec claims that a lone carriage return not followed by a line
feed is returned as the character CR itself with the following rune still
available.  The code's restore branch is dead (it is guarded by
`err != nil`, and `UnreadRune` after a failed `ReadRune` cannot succeed),
so `readRune` silently drops the CR and returns the following rune, here
evaluated at the failing input `"\ra"`.  The second conjunct records the
CRLF folding, which does work as specified. -/
theorem c5_readRune_lone_cr :
    readRune ['\r', 'a'] = some ('a', []) ∧
    readRune ['\r', '\n', 'x'] = some ('\n', ['x']) :=
  ⟨rfl, rfl⟩

/-- C10: for every value it serializes, `writeField` deletes each carriage
return (so values differing only in CRs produce identical output), emits
each line feed as a line-end plus one tab, and copies other runes
verbatim; evaluated on the value `"a\rb\nc"`. -/
theorem c10_writer_value_encoding (v : Str) :
    encodeVal v = encodeVal (v.filter (fun c => c != '\r')) ∧
    writeField false ['f'] ['a', '\r', 'b', '\n', 'c']
      = (['f', ':', '\t', 'a', 'b', '\r', '\n', '\t', 'c', '\r', '\n'], 1) :=
  ⟨(encodeVal_filter_cr v).symm, rfl⟩

/-- C3 counterexample: with no configured field list, `writeMap` emits the
record's own fields in the given map-iteration order, which is not the
lexicographically sorted order, and two iteration orders of the same
record produce different byte sequences. -/
theorem c3_counterexample :
    writeMap false [(['b'], ['1']), (['a'], ['2'])]
        = ['b', ':', '\t', '1', '\r', '\n', 'a', ':', '\t', '2', '\r', '\n',
           '%', '%', '\r', '\n'] ∧
    writeMap false [(['b'], ['1']), (['a'], ['2'])]
        ≠ writeMap false [(['a'], ['2']), (['b'], ['1'])] := by
  exact ⟨rfl, by decide⟩

/-- C3 amended: if `SetFields` was never called, `Write` falls back to the
record's own fields in the order the Go map happens to be iterated (made
explicit here as the association-list order), with each name normalized
and entries whose normalized name is empty or repeats an earlier one
dropped; the output is not sorted and depends on that iteration order. -/
theorem c3_write_map_order (fe : Bool) (rec : Rec) :
    writeMap fe rec = writeMapVia fe rec := by
  unfold writeMap writeMapVia
  rw [writeMapAux_eq]
  simp only [gt_iff_lt]
  split_ifs with h
  · rfl
  · simp

/-- C8 counterexample: an entry that is empty after normalization does not
produce a configuration error; `SetFields` silently skips it. -/
theorem c8_counterexample :
    normField [' '] = [] ∧ SetFields [[' ']] = .ok [] :=
  ⟨rfl, rfl⟩

/-- C8 amended: `SetFields` errors exactly when some entry has a non-empty
normalization different from itself; entries that normalize to empty are
silently skipped (not an error); on success the kept fields are exactly
the already-normalized non-empty entries, without duplicates, in first
occurrence order (a sublist of the input). -/
theorem c8_set_fields (l : List Str) :
    ((∃ e, SetFields l = .error e) ↔
      ∃ f ∈ l, normField f ≠ [] ∧ normField f ≠ f) ∧
    ∀ r, SetFields l = .ok r →
      r.Sublist l ∧ r.Nodup ∧ ∀ g, g ∈ r ↔ (g ∈ l ∧ normField g = g ∧ g ≠ []) := by
  constructor
  · exact SetFieldsAux_error_iff l [] []
  · intro r h
    obtain ⟨s, hs1, hs2, hs3, hs4⟩ := SetFieldsAux_ok l [] [] r h
    simp only [List.nil_append] at hs1
    subst hs1
    refine ⟨hs2, hs3, ?_⟩
    intro g
    rw [hs4 g]
    simp

/-- C8 witness: `c8_set_fields` applied at a concrete field list with a
duplicate entry. -/
theorem c8_witness : (([['a'], ['b']] : List Str)).Nodup :=
  ((c8_set_fields [['a'], ['a'], ['b']]).2 [['a'], ['b']] rfl).2.1

/-- C2 counterexample: a value folded over an indented continuation line
with no blank line decodes with a literal newline joining the segments,
not a single space: `"a: x\n\ty\n%%\n"` decodes to the value `"x\ny"`,
which contains a newline. -/
theorem c2_counterexample :
    Read ['a', ':', ' ', 'x', '\n', '\t', 'y', '\n', '%', '%', '\n'] 1 []
        = .ok ([(['a'], ['x', '\n', 'y'])], [], 4, [['a']]) ∧
    '\n' ∈ ['x', '\n', 'y'] :=
  ⟨rfl, by decide⟩

/-- C6: `Read` never returns a record with zero fields, and an input
consisting only of blank lines, a comment line and delimiter lines yields
the end-of-stream error rather than any record. -/
theorem c6_no_empty_record :
    (∀ (l : List Char) (line : Nat) (reg : List Str) (rec : Rec)
      (rest : List Char) (ln : Nat) (rg : List Str),
      Read l line reg = .ok (rec, rest, ln, rg) → rec ≠ []) ∧
    Read ['\n', '#', ' ', 'c', '\n', '%', '%', '\n', '\n', '%', '%', '\n'] 1 []
        = .error .eofErr := by
  constructor
  · intro l line reg rec rest ln rg h
    exact ReadF_ok h
  · rfl

/-- C6 witness: `c6_no_empty_record` applied to a concrete one-field
stream. -/
theorem c6_witness : ([(['a'], ['b'])] : Rec) ≠ [] :=
  c6_no_empty_record.1 ['a', ':', ' ', 'b', '\n', '%', '%', '\n'] 1 []
    [(['a'], ['b'])] [] 3 [['a']] rfl

/-- C7: a record cut off by end-of-stream after one field is returned once
(with the stream exhausted), and reading from an exhausted stream returns
the end-of-stream sentinel. -/
theorem c7_partial_then_eof :
    Read ['a', ':', ' ', 'b'] 1 [] = .ok ([(['a'], ['b'])], [], 1, [['a']]) ∧
    ∀ (line : Nat) (reg : List Str), Read [] line reg = .error .eofErr := by
  refine ⟨rfl, ?_⟩
  intro line reg
  rfl

end Stanza

namespace Stanza

/-! ### Field-name traversal lemmas -/

theorem fnLoop_step_colon {k : Nat} {l : List Char} {line : Nat} {b : Str} {sp : Bool} :
    fnLoopF (k + 1) (':' :: l) line b sp = some (b, ':', l, line) := rfl

theorem fnLoop_step_content {c : Char} (h1 : isSpace c = false) (h2 : c ≠ ':')
    {k : Nat} {l : List Char} {line : Nat} {b : Str} {sp : Bool} :
    fnLoopF (k + 1) (c :: l) line b sp
      = fnLoopF k l line (if sp then b ++ ['-', c] else b ++ [c]) false := by
  obtain ⟨g1, g2, g3, g4⟩ := isSpace_false_ne h1
  simp only [fnLoopF, readRune_cons g4, if_neg h2, if_neg g3, h1, Bool.false_eq_true,
    if_false]
  cases sp <;> simp

theorem fnLoop_step_space {c : Char} (h1 : isSpace c = true) (h2 : c ≠ '\n')
    (h3 : c ≠ '\r') {k : Nat} {l : List Char} {line : Nat} {b : Str} {sp : Bool} :
    fnLoopF (k + 1) (c :: l) line b sp = fnLoopF k l line b true := by
  have hc : c ≠ ':' := by
    intro he
    subst he
    simp [isSpace] at h1
  simp only [fnLoopF, readRune_cons h3, if_neg hc, if_neg h2, h1, if_true]

theorem fnLoop_content_run {x : Str} (hx : ∀ c ∈ x, isSpace c = false ∧ c ≠ ':') :
    ∀ {fuel : Nat} {l : List Char} {line : Nat} {b : Str}, x.length < fuel →
    fnLoopF fuel (x ++ l) line b false = fnLoopF (fuel - x.length) l line (b ++ x) false := by
  induction x with
  | nil =>
    intro fuel l line b hf
    simp
  | cons c x' ih =>
    intro fuel l line b hf
    match fuel with
    | 0 => omega
    | k + 1 =>
      obtain ⟨hc1, hc2⟩ := hx c (by simp)
      rw [List.cons_append, fnLoop_step_content hc1 hc2]
      simp only [if_neg (by simp : ¬False), Bool.false_eq_true, if_false]
      rw [ih (fun d hd => hx d (by simp [hd])) (by simp at hf ⊢; omega)]
      simp only [List.append_assoc, List.singleton_append, List.length_cons]
      have harith : k - x'.length = k + 1 - (x'.length + 1) := by omega
      rw [harith]

end Stanza

namespace Stanza

theorem fnLoop_spaces {s : Str} (hs : ∀ c ∈ s, isSpace c = true ∧ c ≠ '\n' ∧ c ≠ '\r') :
    ∀ {fuel : Nat} {l : List Char} {line : Nat} {b : Str} {sp : Bool}, s.length < fuel →
    s ≠ [] →
    fnLoopF fuel (s ++ l) line b sp = fnLoopF (fuel - s.length) l line b true := by
  induction s with
  | nil =>
    intro fuel l line b sp _ hne
    exact absurd rfl hne
  | cons c s' ih =>
    intro fuel l line b sp hf _
    match fuel with
    | 0 => omega
    | k + 1 =>
      obtain ⟨hc1, hc2, hc3⟩ := hs c (by simp)
      rw [List.cons_append, fnLoop_step_space hc1 hc2 hc3]
      by_cases hne : s' = []
      · subst hne
        simp
      · rw [ih (fun d hd => hs d (by simp [hd])) (by simp at hf ⊢; omega) hne]
        simp only [List.length_cons]
        have harith : k - s'.length = k + 1 - (s'.length + 1) := by omega
        rw [harith]

theorem fnSetup_go {c : Char} {l : List Char} {line : Nat} (h1 : isSpace c = false)
    (h2 : c ≠ '#') (h3 : c ≠ '%') :
    fnSetup (c :: l) line = .go (c :: l) line := by
  obtain ⟨g1, g2, g3, g4⟩ := isSpace_false_ne h1
  unfold fnSetup
  simp only [List.length_cons, fnSetupF, readRune_cons g4, h1, Bool.false_eq_true,
    if_false, if_neg h2, if_neg h3]

theorem fnLoopF_ext {fuel1 fuel2 : Nat} {l : List Char} {line : Nat} {b : Str}
    {sp : Bool} (h1 : l.length < fuel1) (h2 : l.length < fuel2) :
    fnLoopF fuel1 l line b sp = fnLoopF fuel2 l line b sp := by
  induction fuel1 generalizing fuel2 l line b sp with
  | zero => omega
  | succ k ih =>
    cases fuel2 with
    | zero => omega
    | succ m =>
      cases hr : readRune l with
      | none => simp only [fnLoopF, hr]
      | some p =>
        obtain ⟨c, rest⟩ := p
        have hlr := readRune_length hr
        simp only [fnLoopF, hr]
        by_cases hc : c = ':'
        · rw [if_pos hc, if_pos hc]
        · rw [if_neg hc, if_neg hc]
          by_cases hn : c = '\n'
          · rw [if_pos hn, if_pos hn]
          · rw [if_neg hn, if_neg hn]
            by_cases hsp : isSpace c
            · rw [if_pos hsp, if_pos hsp]
              exact ih (by omega) (by omega)
            · rw [if_neg hsp, if_neg hsp]
              by_cases hb : sp = true
              · rw [if_pos hb, if_pos hb]
                exact ih (by omega) (by omega)
              · rw [if_neg hb, if_neg hb]
                exact ih (by omega) (by omega)

theorem fnLoop_run {x : Str} (hx : ∀ c ∈ x, isSpace c = false ∧ c ≠ ':')
    {fuel : Nat} {l : List Char} {line : Nat} {b : Str}
    (hf : x.length + l.length < fuel) :
    fnLoopF fuel (x ++ l) line b false = fnLoopF (l.length + 1) l line (b ++ x) false := by
  rw [fnLoop_content_run hx (by omega)]
  exact fnLoopF_ext (by omega) (by omega)

theorem fnLoop_spaces_run {s : Str}
    (hs : ∀ c ∈ s, isSpace c = true ∧ c ≠ '\n' ∧ c ≠ '\r') (hne : s ≠ [])
    {fuel : Nat} {l : List Char} {line : Nat} {b : Str} {sp : Bool}
    (hf : s.length + l.length < fuel) :
    fnLoopF fuel (s ++ l) line b sp = fnLoopF (l.length + 1) l line b true := by
  rw [fnLoop_spaces hs (by omega) hne]
  exact fnLoopF_ext (by omega) (by omega)

theorem parseFieldName_word {f : Str} (hf : ∀ c ∈ f, isSpace c = false ∧ c ≠ ':')
    (hne : f ≠ []) (hh1 : f.head? ≠ some '#') (hh2 : f.head? ≠ some '%')
    {l : List Char} {line : Nat} :
    parseFieldName (f ++ ':' :: l) line = some (f.map Char.toLower, ':', l, line) := by
  obtain ⟨c, f', hw⟩ := List.exists_cons_of_ne_nil hne
  have hhc : f.head? = some c := by rw [hw]; rfl
  obtain ⟨hc1, hc2⟩ := hf c (by rw [hw]; simp)
  have hh1c : c ≠ '#' := fun he => hh1 (by rw [hhc, he])
  have hh2c : c ≠ '%' := fun he => hh2 (by rw [hhc, he])
  have hsetup : fnSetup (f ++ ':' :: l) line = .go (f ++ ':' :: l) line := by
    rw [hw, List.cons_append]
    exact fnSetup_go hc1 hh1c hh2c
  have hloop : fnLoop (f ++ ':' :: l) line [] false = some (f, ':', l, line) := by
    unfold fnLoop
    rw [fnLoop_run hf (by simp only [List.length_append, List.length_cons]; omega)]
    rw [fnLoop_step_colon]
    simp
  simp only [parseFieldName, hsetup, hloop]

/-- The space-collapsing behaviour of `parseFieldName`: a name written as
two words separated by a white-space run parses to the single name with
the run replaced by one `-`, lower-cased. -/
theorem parseFieldName_collapse {w1 w2 s : Str}
    (h1 : ∀ c ∈ w1, isSpace c = false ∧ c ≠ ':') (hne1 : w1 ≠ [])
    (h2 : ∀ c ∈ w2, isSpace c = false ∧ c ≠ ':') (hne2 : w2 ≠ [])
    (hs : ∀ c ∈ s, isSpace c = true ∧ c ≠ '\n' ∧ c ≠ '\r') (hsne : s ≠ [])
    (hh1 : w1.head? ≠ some '#') (hh2 : w1.head? ≠ some '%')
    {l : List Char} {line : Nat} :
    parseFieldName (w1 ++ s ++ w2 ++ ':' :: l) line
      = some ((w1 ++ '-' :: w2).map Char.toLower, ':', l, line) := by
  rw [List.append_assoc, List.append_assoc]
  obtain ⟨c, w1', hw⟩ := List.exists_cons_of_ne_nil hne1
  obtain ⟨d, w2', hw2⟩ := List.exists_cons_of_ne_nil hne2
  have hhc : w1.head? = some c := by rw [hw]; rfl
  obtain ⟨hc1, hc2⟩ := h1 c (by rw [hw]; simp)
  obtain ⟨hd1, hd2⟩ := h2 d (by rw [hw2]; simp)
  have h2' : ∀ e ∈ w2', isSpace e = false ∧ e ≠ ':' :=
    fun e he => h2 e (by rw [hw2]; simp [he])
  have hh1c : c ≠ '#' := fun he => hh1 (by rw [hhc, he])
  have hh2c : c ≠ '%' := fun he => hh2 (by rw [hhc, he])
  have hsetup : fnSetup (w1 ++ (s ++ (w2 ++ ':' :: l))) line
      = .go (w1 ++ (s ++ (w2 ++ ':' :: l))) line := by
    rw [hw, List.cons_append]
    exact fnSetup_go hc1 hh1c hh2c
  have hloop : fnLoop (w1 ++ (s ++ (w2 ++ ':' :: l))) line [] false
      = some (w1 ++ '-' :: w2, ':', l, line) := by
    unfold fnLoop
    rw [fnLoop_run h1 (by simp only [List.length_append, List.length_cons]; omega)]
    rw [fnLoop_spaces_run hs hsne
      (by simp only [List.length_append, List.length_cons]; omega)]
    rw [hw2, List.cons_append]
    rw [fnLoop_step_content hd1 hd2, if_pos rfl]
    rw [fnLoop_run h2' (by simp only [List.length_append, List.length_cons]; omega)]
    rw [fnLoop_step_colon]
    simp
  simp only [parseFieldName, hsetup, hloop]

end Stanza

namespace Stanza

theorem skipF_to_nl {x : Str} (hx : ∀ c ∈ x, c ≠ '\n' ∧ c ≠ '\r') :
    ∀ {fuel : Nat} {rest : List Char}, x.length < fuel →
    skipF fuel '\n' (x ++ '\n' :: rest) = some rest := by
  induction x with
  | nil =>
    intro fuel rest hf
    match fuel with
    | k + 1 => simp [skipF, readRune]
  | cons c x' ih =>
    intro fuel rest hf
    match fuel with
    | 0 => omega
    | k + 1 =>
      obtain ⟨h1, h2⟩ := hx c (by simp)
      rw [List.cons_append]
      simp only [skipF, readRune_cons h2, if_neg h1]
      exact ih (fun d hd => hx d (by simp [hd])) (by simp at hf ⊢; omega)

theorem skip_to_nl {x : Str} (hx : ∀ c ∈ x, c ≠ '\n' ∧ c ≠ '\r') {rest : List Char} :
    skip '\n' (x ++ '\n' :: rest) = some rest :=
  skipF_to_nl hx (by simp [List.length_append]; omega)

theorem pfv_value_words {x : Str} (hx : ∀ c ∈ x, isSpace c = false) (hne : x ≠ [])
    {sep : Char} (hs1 : isSpace sep = true) (hs2 : sep ≠ '\n') (hs3 : sep ≠ '\r')
    {fuel : Nat} {l : List Char} {line : Nat}
    (hf : 1 + x.length + l.length < fuel) :
    parseFieldValueF fuel (sep :: x ++ l) line [] false true false
      = parseFieldValueF (l.length + 1) l line x false false false := by
  obtain ⟨c, x', hw⟩ := List.exists_cons_of_ne_nil hne
  have hc : isSpace c = false := hx c (by rw [hw]; simp)
  have hx' : ∀ d ∈ x', isSpace d = false := fun d hd => hx d (by rw [hw]; simp [hd])
  subst hw
  obtain ⟨k, rfl⟩ : ∃ k, fuel = k + 1 := ⟨fuel - 1, by omega⟩
  rw [List.cons_append, pfv_step_space hs1 hs2 hs3]
  rw [List.cons_append]
  obtain ⟨k2, rfl⟩ : ∃ k2, k = k2 + 1 := ⟨k - 1, by simp at hf; omega⟩
  rw [pfv_step_content hc]
  rw [pfv_words hx' (by simp at hf; omega)]
  simp

end Stanza

namespace Stanza

theorem pfv_cont_line {y : Str} (hy : ∀ c ∈ y, isSpace c = false) (hny : y ≠ [])
    {b : Str} {fuel : Nat} {l : List Char} {line : Nat} {fi : Bool}
    (hf : 2 + y.length + l.length < fuel) :
    parseFieldValueF fuel ('\n' :: '\t' :: (y ++ l)) line b false fi false
      = parseFieldValueF (l.length + 1) l (line + 1) (b ++ '\n' :: y) false false false := by
  obtain ⟨d, y', hw⟩ := List.exists_cons_of_ne_nil hny
  have hd : isSpace d = false := hy d (by rw [hw]; simp)
  have hy' : ∀ e ∈ y', isSpace e = false := fun e he => hy e (by rw [hw]; simp [he])
  subst hw
  obtain ⟨k, rfl⟩ : ∃ k, fuel = k + 1 := ⟨fuel - 1, by omega⟩
  rw [pfv_lineend_cont (readRune_cons (by decide)) (readRune_cons (by decide))
    (by decide) (by decide) (by decide) (by decide)]
  obtain ⟨k2, rfl⟩ : ∃ k2, k = k2 + 1 := ⟨k - 1, by simp at hf; omega⟩
  rw [List.cons_append, pfv_step_content hd]
  rw [pfv_words hy' (by simp at hf; omega)]
  simp

/-- C2 (amended): when the field-value parser reaches a folded continuation
line (a line beginning with whitespace) after a plain line end, a literal
newline - not a space - is inserted before the continuation's content, so
a folded value decodes to newline-joined segments. -/
theorem c2_folded_value_newline_join {x y : Str} (hx : ∀ c ∈ x, isSpace c = false)
    (hnx : x ≠ []) (hy : ∀ c ∈ y, isSpace c = false) (hny : y ≠ [])
    {rest : List Char} {line : Nat} :
    parseFieldValue (' ' :: x ++ '\n' :: '\t' :: y ++ '\n' :: '%' :: '%' :: '\n' :: rest) line
      = (x ++ '\n' :: y, true, rest, line + 3) := by
  unfold parseFieldValue
  rw [List.append_assoc]
  rw [pfv_value_words hx hnx (by decide) (by decide) (by decide)
    (by simp [List.length_append]; omega)]
  rw [show (('\n' :: '\t' :: y) ++ '\n' :: '%' :: '%' :: '\n' :: rest)
      = '\n' :: '\t' :: (y ++ '\n' :: '%' :: '%' :: '\n' :: rest) by simp]
  rw [pfv_cont_line hy hny (by simp [List.length_append]; omega)]
  rw [pfv_lineend_eor (readRune_cons (by decide)) (readRune_cons (by decide))]
  rw [show skip '\n' ('%' :: '\n' :: rest) = some rest from
    skip_to_nl (x := ['%']) (by decide)]
  rfl

/-- C2 witness: the amended claim evaluated on a concrete folded field
value. -/
theorem c2_witness :
    parseFieldValue [' ', 'x', '\n', '\t', 'y', '\n', '%', '%', '\n'] 1
      = (['x', '\n', 'y'], true, [], 4) := by
  have h : parseFieldValue
      (' ' :: ['x'] ++ '\n' :: '\t' :: ['y'] ++ '\n' :: '%' :: '%' :: '\n' :: []) 1
      = (['x'] ++ '\n' :: ['y'], true, [], 1 + 3) :=
    c2_folded_value_newline_join (by decide) (by decide) (by decide) (by decide)
  exact h

/-- C9: the field-name parser does not fail on internal whitespace in a
name: a whitespace run inside the name is collapsed to a single `-` and
the name is lower-cased, so a name written as two words parses to the
single hyphenated lower-case name (e.g. `ISO 3166` to `iso-3166`). -/
theorem c9_name_space_collapse {w1 w2 s : Str}
    (h1 : ∀ c ∈ w1, isSpace c = false ∧ c ≠ ':') (hne1 : w1 ≠ [])
    (h2 : ∀ c ∈ w2, isSpace c = false ∧ c ≠ ':') (hne2 : w2 ≠ [])
    (hs : ∀ c ∈ s, isSpace c = true ∧ c ≠ '\n' ∧ c ≠ '\r') (hsne : s ≠ [])
    (hh1 : w1.head? ≠ some '#') (hh2 : w1.head? ≠ some '%')
    {l : List Char} {line : Nat} :
    parseFieldName (w1 ++ s ++ w2 ++ ':' :: l) line
      = some ((w1 ++ '-' :: w2).map Char.toLower, ':', l, line) :=
  parseFieldName_collapse h1 hne1 h2 hne2 hs hsne hh1 hh2

/-- C9 witness: the name `ISO 3166` parses to `iso-3166`. -/
theorem c9_witness :
    parseFieldName ['I', 'S', 'O', ' ', '3', '1', '6', '6', ':', ' ', 'A', 'R'] 1
      = some (['i', 's', 'o', '-', '3', '1', '6', '6'], ':', [' ', 'A', 'R'], 1) := by
  have h : parseFieldName
      (['I', 'S', 'O'] ++ [' '] ++ ['3', '1', '6', '6'] ++ ':' :: [' ', 'A', 'R']) 1
      = some (((['I', 'S', 'O'] ++ '-' :: ['3', '1', '6', '6']).map Char.toLower),
          ':', [' ', 'A', 'R'], 1) :=
    c9_name_space_collapse (by decide) (by decide) (by decide) (by decide)
      (by decide) (by decide) (by decide) (by decide)
  exact h

end Stanza

namespace Stanza

/-- C4: a second occurrence of the same normalized field name with a
non-empty value makes `Read` fail with the duplicated-field error carrying
the current line number and the field name, instead of overwriting the
first value.  The stream below holds the same field twice with values
`x` and `y`, followed by the record delimiter. -/
theorem c4_duplicate_field {f : Str}
    (hf : ∀ c ∈ f, isSpace c = false ∧ c ≠ ':') (hne : f ≠ [])
    (hh1 : f.head? ≠ some '#') (hh2 : f.head? ≠ some '%') :
    Read (f ++ ':' :: ' ' :: 'x' :: '\n' ::
      (f ++ ':' :: ' ' :: 'y' :: '\n' :: '%' :: '%' :: '\n' :: [])) 1 []
      = .error (.dup 4 (f.map Char.toLower)) := by
  obtain ⟨c, f', hw⟩ := List.exists_cons_of_ne_nil hne
  subst hw
  have hcr : c ≠ '\r' := (isSpace_false_ne (hf c (by simp)).1).2.2.2
  have hcn : c ≠ '\n' := (isSpace_false_ne (hf c (by simp)).1).2.2.1
  have hcsp : isSpace c = false := (hf c (by simp)).1
  have hch : c ≠ '#' := fun he => hh1 (by simp [he])
  have hcp : c ≠ '%' := fun he => hh2 (by simp [he])
  have hv1 : parseFieldValue
      (' ' :: 'x' :: '\n' :: ((c :: f') ++ ':' :: ' ' :: 'y' :: '\n' :: '%' :: '%' :: '\n' :: [])) 1
      = (['x'], false,
         (c :: f') ++ ':' :: ' ' :: 'y' :: '\n' :: '%' :: '%' :: '\n' :: [], 2) := by
    show parseFieldValue
      (' ' :: ['x'] ++ ('\n' :: ((c :: f') ++ ':' :: ' ' :: 'y' :: '\n' :: '%' :: '%' :: '\n' :: []))) 1
      = _
    unfold parseFieldValue
    rw [pfv_value_words (by decide) (by decide) (by decide) (by decide) (by decide)
      (by simp [List.length_append]; omega)]
    rw [List.cons_append]
    rw [pfv_lineend_endfield (readRune_cons (by decide)) (readRune_cons hcr)
      hch hcp hcn hcsp]
  have hv2 : parseFieldValue (' ' :: 'y' :: '\n' :: '%' :: '%' :: '\n' :: []) 2
      = (['y'], true, [], 4) := by rfl
  have h1loop : parseRecordLoopF
      (((c :: f') ++ ':' :: ' ' :: 'x' :: '\n' ::
        ((c :: f') ++ ':' :: ' ' :: 'y' :: '\n' :: '%' :: '%' :: '\n' :: [])).length + 1)
      ((c :: f') ++ ':' :: ' ' :: 'x' :: '\n' ::
        ((c :: f') ++ ':' :: ' ' :: 'y' :: '\n' :: '%' :: '%' :: '\n' :: [])) 1 [] []
      = .error (.dup 4 ((c :: f').map Char.toLower)) := by
    simp only [parseRecordLoopF]
    rw [parseFieldName_word hf hne hh1 hh2]
    simp only [reduceCtorEq, if_neg (by decide : ¬(':' : Char) = '\n'),
      if_neg (by decide : ¬(':' : Char) = '%'), hv1]
    rw [if_pos ⟨by simp, by simp⟩]
    rw [if_neg (by simp [hasKey])]
    simp only [Bool.false_eq_true, if_false, List.nil_append,
      List.not_mem_nil, if_neg (by simp : ¬False)]
    rw [parseFieldName_word hf hne hh1 hh2]
    simp only [reduceCtorEq, if_neg (by decide : ¬(':' : Char) = '\n'),
      if_neg (by decide : ¬(':' : Char) = '%'), hv2]
    rw [if_pos ⟨by simp, by simp⟩]
    rw [if_pos (by simp [hasKey])]
  have hpr : parseRecord
      ((c :: f') ++ ':' :: ' ' :: 'x' :: '\n' ::
        ((c :: f') ++ ':' :: ' ' :: 'y' :: '\n' :: '%' :: '%' :: '\n' :: [])) 1 []
      = .error (.dup 4 ((c :: f').map Char.toLower)) := by
    unfold parseRecord
    rw [h1loop]
  unfold Read ReadF
  rw [hpr]

end Stanza

namespace Stanza

/-- C4 witness: the duplicated field `a` makes `Read` fail with the
duplicated-field error. -/
theorem c4_witness :
    Read ['a', ':', ' ', 'x', '\n', 'a', ':', ' ', 'y', '\n', '%', '%', '\n'] 1 []
      = .error (.dup 4 ['a']) := by
  have h := c4_duplicate_field (f := ['a']) (by decide) (by decide) (by decide) (by decide)
  exact h

end Stanza

namespace Stanza

/-! ### Normal form of reader-produced values -/

/-- Invariant of the tail of a value built by `parseFieldValue`: every
white-space rune in it is a single `' '` or `'\n'` immediately followed by
a non-space rune. -/
def ValTail : Str → Bool
  | [] => true
  | c :: v =>
    if isSpace c then
      ((c = ' ' || c = '\n') &&
        (match v with
         | [] => false
         | c2 :: _ => !isSpace c2) && ValTail v)
    else ValTail v

/-- The last rune, if any, is not white space. -/
def lastNS (l : Str) : Prop := ∀ c, l.getLast? = some c → isSpace c = false

theorem valTail_cons_ns {c : Char} {v : Str} (h : isSpace c = false) :
    ValTail (c :: v) = ValTail v := by
  simp [ValTail, h]

theorem valTail_cases {v : Str} (h : ValTail v = true) :
    v = [] ∨ (∃ c w, v = c :: w ∧ isSpace c = false ∧ ValTail w = true) ∨
      (∃ x c w, v = x :: c :: w ∧ (x = ' ' ∨ x = '\n') ∧ isSpace c = false ∧
        ValTail (c :: w) = true) := by
  match v with
  | [] => exact Or.inl rfl
  | c :: w =>
    by_cases hc : isSpace c = true
    · simp only [ValTail, hc, if_true, Bool.and_eq_true, Bool.or_eq_true,
        decide_eq_true_eq] at h
      obtain ⟨⟨h1, h2⟩, h3⟩ := h
      match w, h2 with
      | c2 :: w', h2 =>
        simp only [Bool.not_eq_true'] at h2
        refine Or.inr (Or.inr ⟨c, c2, w', rfl, h1, h2, ?_⟩)
        rw [valTail_cons_ns h2] at h3 ⊢
        exact h3
    · simp only [Bool.not_eq_true] at hc
      rw [valTail_cons_ns hc] at h
      exact Or.inr (Or.inl ⟨c, w, rfl, hc, h⟩)

theorem encodeVal_cons_ns {c : Char} {v : Str} (h1 : c ≠ '\r') (h2 : c ≠ '\n') :
    encodeVal (c :: v) = c :: encodeVal v := by
  simp [encodeVal, h1, h2]

theorem encodeVal_cons_nl {v : Str} :
    encodeVal ('\n' :: v) = '\r' :: '\n' :: '\t' :: encodeVal v := by
  simp [encodeVal]

end Stanza

namespace Stanza

theorem pfv_encode_aux : ∀ (n : Nat) (v : Str), v.length ≤ n → ValTail v = true →
    ∀ {fuel : Nat} {l : List Char} {line : Nat} {b : Str}, b ≠ [] →
    (encodeVal v).length + l.length + 2 < fuel →
    parseFieldValueF fuel (encodeVal v ++ '\r' :: '\n' :: l) line b false false false
      = parseFieldValueF (l.length + 3) ('\r' :: '\n' :: l) (line + v.count '\n') (b ++ v)
          false false false := by
  intro n
  induction n with
  | zero =>
    intro v hlen hv fuel l line b hb hf
    have hv0 : v = [] := List.length_eq_zero.mp (by omega)
    subst hv0
    simp only [encodeVal, List.nil_append, List.count_nil, Nat.add_zero, List.append_nil]
    exact pfv_ext (by simp at hf ⊢; omega) (by simp)
  | succ m ih =>
    intro v hlen hv fuel l line b hb hf
    rcases valTail_cases hv with hv0 | ⟨c, w, rfl, hc, hw⟩ | ⟨x, c, w, rfl, hx, hc, hcw⟩
    · subst hv0
      simp only [encodeVal, List.nil_append, List.count_nil, Nat.add_zero, List.append_nil]
      exact pfv_ext (by simp at hf ⊢; omega) (by simp)
    · obtain ⟨g1, g2, g3, g4⟩ := isSpace_false_ne hc
      rw [encodeVal_cons_ns g4 g3] at hf ⊢
      obtain ⟨k, rfl⟩ : ∃ k, fuel = k + 1 := ⟨fuel - 1, by omega⟩
      rw [List.cons_append, pfv_step_content hc]
      simp only [Bool.false_eq_true, if_false]
      rw [ih w (by simp at hlen; omega) hw (by simp) (by simp at hf ⊢; omega)]
      simp [List.count_cons, g3]
    · have hw : ValTail w = true := by rw [valTail_cons_ns hc] at hcw; exact hcw
      obtain ⟨g1, g2, g3, g4⟩ := isSpace_false_ne hc
      rcases hx with hx | hx
      · subst hx
        rw [encodeVal_cons_ns (by decide) (by decide)] at hf ⊢
        rw [encodeVal_cons_ns g4 g3] at hf ⊢
        obtain ⟨k, rfl⟩ : ∃ k, fuel = k + 1 := ⟨fuel - 1, by omega⟩
        rw [List.cons_append, pfv_step_space (by decide) (by decide) (by decide)]
        obtain ⟨k2, rfl⟩ : ∃ k2, k = k2 + 1 := ⟨k - 1, by simp at hf; omega⟩
        rw [List.cons_append, pfv_step_content hc]
        simp only [Bool.false_eq_true, if_false, if_pos rfl]
        rw [ih w (by simp at hlen; omega) hw (by simp) (by simp at hf ⊢; omega)]
        simp only [List.append_assoc, List.count_cons]
        simp [g3]
      · subst hx
        rw [encodeVal_cons_nl] at hf ⊢
        rw [encodeVal_cons_ns g4 g3] at hf ⊢
        obtain ⟨k, rfl⟩ : ∃ k, fuel = k + 1 := ⟨fuel - 1, by omega⟩
        rw [List.cons_append, List.cons_append, List.cons_append, List.cons_append]
        rw [pfv_lineend_cont (by rfl) (readRune_cons (by decide)) (by decide) (by decide)
          (by decide) (by decide)]
        obtain ⟨k2, rfl⟩ : ∃ k2, k = k2 + 1 := ⟨k - 1, by simp at hf; omega⟩
        rw [pfv_step_content hc]
        simp only [if_pos trivial]
        rw [ih w (by simp at hlen; omega) hw (by simp) (by simp at hf ⊢; omega)]
        have hcnt : List.count '\n' ('\n' :: c :: w) = List.count '\n' w + 1 := by
          simp [List.count_cons, g3]
        rw [hcnt]
        have harr : b ++ '\n' :: c :: w = (b ++ ['\n', c]) ++ w := by simp
        rw [harr]
        have hline : line + 1 + List.count '\n' w = line + (List.count '\n' w + 1) := by
          omega
        rw [hline]

end Stanza

namespace Stanza

theorem pfv_encode {v : Str} (hv : ValTail v = true) {fuel : Nat} {l : List Char}
    {line : Nat} {b : Str} (hb : b ≠ [])
    (hf : (encodeVal v).length + l.length + 2 < fuel) :
    parseFieldValueF fuel (encodeVal v ++ '\r' :: '\n' :: l) line b false false false
      = parseFieldValueF (l.length + 3) ('\r' :: '\n' :: l) (line + v.count '\n') (b ++ v)
          false false false :=
  pfv_encode_aux v.length v (le_refl _) hv hb hf

theorem parseFieldValue_encoded {v : Str} (hv : ValTail v = true) (hne : v ≠ [])
    (hhead : ∀ c, v.head? = some c → isSpace c = false)
    {sep : Char} (hs1 : isSpace sep = true) (hs2 : sep ≠ '\n') (hs3 : sep ≠ '\r')
    {l : List Char} {line : Nat} :
    parseFieldValue (sep :: encodeVal v ++ '\r' :: '\n' :: l) line
      = parseFieldValueF (l.length + 3) ('\r' :: '\n' :: l) (line + v.count '\n') v
          false false false := by
  obtain ⟨c, w, hw⟩ := List.exists_cons_of_ne_nil hne
  have hc : isSpace c = false := hhead c (by rw [hw]; rfl)
  obtain ⟨g1, g2, g3, g4⟩ := isSpace_false_ne hc
  have hwt : ValTail w = true := by
    rw [hw, valTail_cons_ns hc] at hv
    exact hv
  subst hw
  unfold parseFieldValue
  rw [encodeVal_cons_ns g4 g3]
  obtain ⟨k, hk⟩ : ∃ k, (sep :: (c :: encodeVal w) ++ '\r' :: '\n' :: l).length + 1 = k + 1 :=
    ⟨_, rfl⟩
  rw [hk, List.cons_append, pfv_step_space hs1 hs2 hs3]
  obtain ⟨k2, rfl⟩ : ∃ k2, k = k2 + 1 := ⟨k - 1, by simp at hk; omega⟩
  rw [List.cons_append, pfv_step_content hc]
  simp only [Bool.false_eq_true, if_false, if_pos rfl, List.nil_append]
  rw [pfv_encode hwt (by simp)
    (by simp only [List.length_cons, List.length_append] at hk; omega)]
  have hcnt : List.count '\n' (c :: w) = List.count '\n' w := by
    simp [List.count_cons, g3]
  rw [hcnt]
  simp

theorem parseFieldValue_encoded_mid {v : Str} (hv : ValTail v = true) (hne : v ≠ [])
    (hhead : ∀ c, v.head? = some c → isSpace c = false)
    {sep : Char} (hs1 : isSpace sep = true) (hs2 : sep ≠ '\n') (hs3 : sep ≠ '\r')
    {k : Char} (hk1 : isSpace k = false) (hk2 : k ≠ '#') (hk3 : k ≠ '%')
    {l : List Char} {line : Nat} :
    parseFieldValue (sep :: encodeVal v ++ '\r' :: '\n' :: k :: l) line
      = (v, false, k :: l, line + v.count '\n' + 1) := by
  obtain ⟨g1, g2, g3, g4⟩ := isSpace_false_ne hk1
  rw [parseFieldValue_encoded hv hne hhead hs1 hs2 hs3]
  rw [pfv_lineend_endfield (by rfl) (readRune_cons g4) hk2 hk3 g3 hk1]

theorem parseFieldValue_encoded_last {v : Str} (hv : ValTail v = true) (hne : v ≠ [])
    (hhead : ∀ c, v.head? = some c → isSpace c = false)
    {sep : Char} (hs1 : isSpace sep = true) (hs2 : sep ≠ '\n') (hs3 : sep ≠ '\r')
    {line : Nat} :
    parseFieldValue (sep :: encodeVal v ++ '\r' :: '\n' :: '%' :: '%' :: '\r' :: '\n' :: []) line
      = (v, true, [], line + v.count '\n' + 2) := by
  rw [parseFieldValue_encoded hv hne hhead hs1 hs2 hs3]
  rw [pfv_lineend_eor (by rfl) (readRune_cons (by decide))]
  rfl

end Stanza

namespace Stanza

theorem lastNS_nil : lastNS ([] : Str) := by
  intro c h
  simp at h

theorem lastNS_tail {c : Char} {b : Str} (h : lastNS (c :: b)) (hne : b ≠ []) :
    lastNS b := by
  intro d hd
  apply h
  match b, hne with
  | e :: t, _ =>
    rw [List.getLast?_cons_cons]
    exact hd

theorem lastNS_concat {b : Str} {x : Char} (hx : isSpace x = false) :
    lastNS (b ++ [x]) := by
  intro d hd
  rw [List.getLast?_concat] at hd
  injection hd with hd2
  rw [← hd2]
  exact hx

theorem head_append_left {b r : Str} (hne : b ≠ []) : (b ++ r).head? = b.head? := by
  match b, hne with
  | c :: t, _ => rfl

theorem valTail_append {b r : Str} (h1 : ValTail b = true) (h2 : lastNS b)
    (h3 : ValTail r = true) : ValTail (b ++ r) = true := by
  induction b with
  | nil => simpa using h3
  | cons c b' ih =>
    by_cases hc : isSpace c = true
    · simp only [ValTail, hc, if_true, Bool.and_eq_true, Bool.or_eq_true,
        decide_eq_true_eq] at h1
      obtain ⟨⟨hx, hmatch⟩, hvt⟩ := h1
      match b', hmatch, hvt with
      | c2 :: b'', hm, hvt =>
        simp only [Bool.not_eq_true'] at hm
        have hrest : ValTail (c2 :: b'' ++ r) = true :=
          ih hvt (lastNS_tail h2 (by simp))
        rw [List.cons_append]
        simp only [ValTail, hc, if_true, Bool.and_eq_true, Bool.or_eq_true,
          decide_eq_true_eq]
        refine ⟨⟨hx, ?_⟩, ?_⟩
        · simp only [List.cons_append]
          simp [hm]
        · simp only [hm, Bool.false_eq_true, if_false]
          rw [List.cons_append, valTail_cons_ns hm] at hrest
          exact hrest
    · simp only [Bool.not_eq_true] at hc
      rw [List.cons_append, valTail_cons_ns hc]
      rw [valTail_cons_ns hc] at h1
      match b' with
      | [] => simpa using h3
      | e :: t => exact ih h1 (lastNS_tail h2 (by simp))

end Stanza

namespace Stanza

/-- Head condition of a reader-produced value: the first rune is not white
space, except possibly a single leading newline. -/
def headOk (v : Str) : Prop := ∀ c, v.head? = some c → isSpace c = false ∨ c = '\n'

/-- Normal form of values built by `parseFieldValue`. -/
def ValOk (v : Str) : Prop := ValTail v = true ∧ lastNS v ∧ headOk v

theorem valOk_nil : ValOk ([] : Str) := by
  refine ⟨rfl, lastNS_nil, ?_⟩
  intro c h
  simp at h

theorem valOk_write_nl {b : Str} {c : Char} (h : ValOk b) (hc : isSpace c = false) :
    ValOk (b ++ ['\n', c]) := by
  obtain ⟨h1, h2, h3⟩ := h
  refine ⟨valTail_append h1 h2 (by simp [ValTail, hc]), ?_, ?_⟩
  · have he : b ++ ['\n', c] = (b ++ ['\n']) ++ [c] := by simp
    rw [he]
    exact lastNS_concat hc
  · intro d hd
    match b with
    | [] =>
      injection hd with hd2
      exact Or.inr hd2.symm
    | e :: t =>
      rw [head_append_left (by simp)] at hd
      exact h3 d hd

theorem valOk_write_sp {b : Str} {c : Char} (h : ValOk b) (hb : b ≠ [])
    (hc : isSpace c = false) : ValOk (b ++ [' ', c]) := by
  obtain ⟨h1, h2, h3⟩ := h
  refine ⟨valTail_append h1 h2 (by simp [ValTail, hc]), ?_, ?_⟩
  · have he : b ++ [' ', c] = (b ++ [' ']) ++ [c] := by simp
    rw [he]
    exact lastNS_concat hc
  · intro d hd
    rw [head_append_left hb] at hd
    exact h3 d hd

theorem valOk_write_one {b : Str} {c : Char} (h : ValOk b) (hc : isSpace c = false) :
    ValOk (b ++ [c]) := by
  obtain ⟨h1, h2, h3⟩ := h
  refine ⟨valTail_append h1 h2 (by simp [ValTail, hc]), lastNS_concat hc, ?_⟩
  intro d hd
  match b with
  | [] =>
    injection hd with hd2
    exact Or.inl (hd2 ▸ hc)
  | e :: t =>
    rw [head_append_left (by simp)] at hd
    exact h3 d hd

theorem pfv_inv : ∀ (fuel : Nat) {l : List Char} {line : Nat} {b : Str} {sp fi lf : Bool},
    ValOk b → (fi = true ↔ b = []) →
    ValOk (parseFieldValueF fuel l line b sp fi lf).1 := by
  intro fuel
  induction fuel with
  | zero =>
    intro l line b sp fi lf hb _
    exact hb
  | succ k ih =>
    intro l line b sp fi lf hb hfi
    cases hr : readRune l with
    | none =>
      simp only [parseFieldValueF, hr]
      exact hb
    | some p =>
      obtain ⟨c, rest⟩ := p
      simp only [parseFieldValueF, hr]
      by_cases hc : c = '\n'
      · rw [if_pos hc]
        cases hr2 : readRune rest with
        | none => exact hb
        | some q =>
          obtain ⟨c2, rest2⟩ := q
          simp only
          by_cases h2 : c2 = '#'
          · rw [if_pos h2]
            cases hsk : skip '\n' rest2 with
            | none => exact hb
            | some rest3 => exact ih hb hfi
          · rw [if_neg h2]
            by_cases h3 : c2 = '%'
            · rw [if_pos h3]
              exact hb
            · rw [if_neg h3]
              by_cases h4 : c2 = '\n'
              · rw [if_pos h4]
                exact ih hb hfi
              · rw [if_neg h4]
                by_cases h5 : isSpace c2
                · rw [if_pos h5]
                  exact ih hb hfi
                · rw [if_neg h5]
                  exact hb
      · rw [if_neg hc]
        by_cases hs : isSpace c
        · rw [if_pos hs]
          exact ih hb hfi
        · rw [if_neg hs]
          simp only [Bool.not_eq_true] at hs
          apply ih
          · by_cases hlf : lf = true
            · rw [if_pos hlf]
              exact valOk_write_nl hb hs
            · rw [if_neg hlf]
              by_cases hsp : sp = true
              · rw [if_pos hsp]
                by_cases hfi2 : fi = true
                · rw [if_pos hfi2]
                  exact valOk_write_one hb hs
                · rw [if_neg hfi2]
                  have hbne : b ≠ [] := by
                    intro he
                    exact hfi2 (hfi.mpr he)
                  exact valOk_write_sp hb hbne hs
              · rw [if_neg hsp]
                exact valOk_write_one hb hs
          · constructor
            · intro h
              exact absurd h (by simp)
            · intro h
              exact absurd h (by split_ifs <;> simp)

end Stanza

namespace Stanza

theorem toLower_keyChar {c : Char} (h1 : isSpace c = false) (h2 : c ≠ ':') :
    isSpace c.toLower = false ∧ c.toLower ≠ ':' := by
  refine ⟨toLower_isSpace c h1, ?_⟩
  intro he
  exact h2 (toLower_eq_low c ':' he (by decide))

theorem toLower_ne_hash {c : Char} (h : c ≠ '#') : c.toLower ≠ '#' :=
  fun he => h (toLower_eq_low c '#' he (by decide))

theorem toLower_ne_pct {c : Char} (h : c ≠ '%') : c.toLower ≠ '%' :=
  fun he => h (toLower_eq_low c '%' he (by decide))

theorem fnSetupF_go_shape : ∀ (fuel : Nat) {l : List Char} {line : Nat}
    {m : List Char} {ln : Nat}, fnSetupF fuel l line = .go m ln →
    ∃ c m', m = c :: m' ∧ isSpace c = false ∧ c ≠ '#' ∧ c ≠ '%' := by
  intro fuel
  induction fuel with
  | zero =>
    intro l line m ln h
    simp [fnSetupF] at h
  | succ k ih =>
    intro l line m ln h
    cases hr : readRune l with
    | none => simp [fnSetupF, hr] at h
    | some p =>
      obtain ⟨c, rest⟩ := p
      simp only [fnSetupF, hr] at h
      by_cases h1 : isSpace c
      · rw [if_pos h1] at h
        by_cases h2 : c = '\n'
        · rw [if_pos h2] at h
          exact ih h
        · rw [if_neg h2] at h
          exact ih h
      · rw [if_neg h1] at h
        by_cases h2 : c = '#'
        · rw [if_pos h2] at h
          cases hsk : skip '\n' rest with
          | none => rw [hsk] at h; exact absurd h (by simp)
          | some rest2 => rw [hsk] at h; exact ih h
        · rw [if_neg h2] at h
          by_cases h3 : c = '%'
          · rw [if_pos h3] at h
            exact absurd h (by simp)
          · rw [if_neg h3] at h
            simp only [SetupRes.go.injEq] at h
            simp only [Bool.not_eq_true] at h1
            exact ⟨c, rest, h.1.symm, h1, h2, h3⟩

theorem fnLoop_name_chars : ∀ (fuel : Nat) {l : List Char} {line : Nat} {b : Str}
    {sp : Bool} {nm : Str} {d : Char} {rest : List Char} {ln : Nat},
    fnLoopF fuel l line b sp = some (nm, d, rest, ln) →
    ∃ t, nm = b ++ t ∧ ∀ c ∈ t, isSpace c = false ∧ c ≠ ':' := by
  intro fuel
  induction fuel with
  | zero =>
    intro l line b sp nm d rest ln h
    simp [fnLoopF] at h
  | succ k ih =>
    intro l line b sp nm d rest ln h
    cases hr : readRune l with
    | none => simp [fnLoopF, hr] at h
    | some p =>
      obtain ⟨c, rest0⟩ := p
      simp only [fnLoopF, hr] at h
      by_cases h1 : c = ':'
      · rw [if_pos h1] at h
        simp only [Option.some.injEq, Prod.mk.injEq] at h
        exact ⟨[], by simp [h.1.symm], by simp⟩
      · rw [if_neg h1] at h
        by_cases h2 : c = '\n'
        · rw [if_pos h2] at h
          simp only [Option.some.injEq, Prod.mk.injEq] at h
          exact ⟨[], by simp [h.1.symm], by simp⟩
        · rw [if_neg h2] at h
          by_cases h3 : isSpace c
          · rw [if_pos h3] at h
            exact ih h
          · rw [if_neg h3] at h
            simp only [Bool.not_eq_true] at h3
            by_cases h4 : sp = true
            · rw [if_pos h4] at h
              obtain ⟨t', ht1, ht2⟩ := ih h
              refine ⟨'-' :: c :: t', by simp [ht1], ?_⟩
              intro e he
              rcases List.mem_cons.mp he with he1 | he2
              · subst he1
                exact ⟨by decide, by decide⟩
              · rcases List.mem_cons.mp he2 with he3 | he4
                · subst he3
                  exact ⟨h3, h1⟩
                · exact ht2 e he4
            · rw [if_neg h4] at h
              obtain ⟨t', ht1, ht2⟩ := ih h
              refine ⟨c :: t', by simp [ht1], ?_⟩
              intro e he
              rcases List.mem_cons.mp he with he1 | he2
              · subst he1
                exact ⟨h3, h1⟩
              · exact ht2 e he2

theorem fnLoop_head {fuel : Nat} {c : Char} {m' : List Char} {line : Nat}
    {nm : Str} {d : Char} {rest : List Char} {ln : Nat}
    (h : fnLoopF fuel (c :: m') line [] false = some (nm, d, rest, ln))
    (hc : isSpace c = false) :
    nm = [] ∨ ∃ t, nm = c :: t ∧ c ≠ ':' ∧ ∀ e ∈ t, isSpace e = false ∧ e ≠ ':' := by
  obtain ⟨g1, g2, g3, g4⟩ := isSpace_false_ne hc
  match fuel with
  | 0 => simp [fnLoopF] at h
  | k + 1 =>
    simp only [fnLoopF, readRune_cons g4] at h
    by_cases h1 : c = ':'
    · rw [if_pos h1] at h
      simp only [Option.some.injEq, Prod.mk.injEq] at h
      exact Or.inl h.1.symm
    · rw [if_neg h1] at h
      rw [if_neg g3, if_neg (by rw [hc]; simp)] at h
      simp only [Bool.false_eq_true, if_false] at h
      obtain ⟨t', ht1, ht2⟩ := fnLoop_name_chars k h
      exact Or.inr ⟨t', by simpa using ht1, h1, ht2⟩

end Stanza

namespace Stanza

theorem goFieldsAux_nospace : ∀ (l : List Char) (cur : List Char),
    (∀ c ∈ l, isSpace c = false) →
    goFieldsAux l cur = if cur = [] ∧ l = [] then [] else [cur.reverse ++ l] := by
  intro l
  induction l with
  | nil =>
    intro cur _
    simp [goFieldsAux]
  | cons c r ih =>
    intro cur hl
    have hc : isSpace c = false := hl c (by simp)
    simp only [goFieldsAux, hc, Bool.false_eq_true, if_false]
    rw [ih (c :: cur) (fun d hd => hl d (by simp [hd]))]
    simp

theorem goFields_nospace {f : Str} (h : ∀ c ∈ f, isSpace c = false) (hne : f ≠ []) :
    goFields f = [f] := by
  unfold goFields
  rw [goFieldsAux_nospace f [] h]
  simp [hne]

theorem intercalate_single (s x : Str) : List.intercalate s [x] = x := by
  simp [List.intercalate]

theorem normField_stable {f : Str} (hch : ∀ c ∈ f, isSpace c = false) (hne : f ≠ [])
    (hlow : f.map Char.toLower = f) : normField f = f := by
  unfold normField
  rw [goFields_nospace hch hne, intercalate_single]
  exact hlow

/-- The invariant of field names stored by the reader. -/
def KeyOk (f : Str) : Prop :=
  f ≠ [] ∧ (∀ c ∈ f, isSpace c = false ∧ c ≠ ':') ∧ f.head? ≠ some '#' ∧
  f.head? ≠ some '%' ∧ f.map Char.toLower = f ∧ normField f = f

theorem parseFieldName_inv {l : List Char} {line : Nat} {f : Str} {d : Char}
    {rest : List Char} {ln : Nat}
    (h : parseFieldName l line = some (f, d, rest, ln)) : f = [] ∨ KeyOk f := by
  unfold parseFieldName at h
  cases hsu : fnSetup l line with
  | err =>
    simp only [hsu] at h
    exact absurd h (by simp)
  | eor r2 ln2 =>
    simp only [hsu, Option.some.injEq, Prod.mk.injEq] at h
    exact Or.inl h.1.symm
  | go m ln1 =>
    simp only [hsu] at h
    obtain ⟨c, m', hm, hcs, hch, hcp⟩ := fnSetupF_go_shape _ hsu
    cases hlp : fnLoop m ln1 [] false with
    | none =>
      simp only [hlp] at h
      exact absurd h (by simp)
    | some q =>
      obtain ⟨b, d2, r2, ln2⟩ := q
      simp only [hlp, Option.some.injEq, Prod.mk.injEq] at h
      obtain ⟨hf, _, _, _⟩ := h
      subst hm
      rcases fnLoop_head hlp hcs with hb | ⟨t, hbt, hcne, htc⟩
      · subst hb
        exact Or.inl hf.symm
      · subst hbt
        right
        have hbchars : ∀ e ∈ c :: t, isSpace e = false ∧ e ≠ ':' := by
          intro e he
          rcases List.mem_cons.mp he with he1 | he2
          · subst he1
            exact ⟨hcs, hcne⟩
          · exact htc e he2
        rw [← hf]
        have hchars2 : ∀ e ∈ (c :: t).map Char.toLower, isSpace e = false ∧ e ≠ ':' := by
          intro e he
          obtain ⟨a, ha, hae⟩ := List.mem_map.mp he
          obtain ⟨ha1, ha2⟩ := hbchars a ha
          rw [← hae]
          exact toLower_keyChar ha1 ha2
        have hlow : ((c :: t).map Char.toLower).map Char.toLower = (c :: t).map Char.toLower := by
          rw [List.map_map]
          apply List.map_congr_left
          intro a _
          exact toLower_idem a
        refine ⟨by simp, hchars2, ?_, ?_, hlow, ?_⟩
        · intro he
          simp only [List.map_cons, List.head?_cons, Option.some.injEq] at he
          exact toLower_ne_hash hch he
        · intro he
          simp only [List.map_cons, List.head?_cons, Option.some.injEq] at he
          exact toLower_ne_pct hcp he
        · exact normField_stable (fun e he => (hchars2 e he).1) (by simp) hlow

end Stanza

namespace Stanza

/-- Invariant of a field stored by the reader. -/
def FieldOk (p : Str × Str) : Prop := KeyOk p.1 ∧ p.2 ≠ [] ∧ ValOk p.2

/-- Invariant of a record built by the reader: every field satisfies
`FieldOk` and the keys are pairwise distinct. -/
def RecOk (rec : Rec) : Prop := (∀ p ∈ rec, FieldOk p) ∧ (rec.map Prod.fst).Nodup

theorem recOk_nil : RecOk ([] : Rec) := ⟨by simp, by simp⟩

theorem hasKey_iff {rec : Rec} {f : Str} : hasKey rec f = true ↔ f ∈ rec.map Prod.fst := by
  induction rec with
  | nil => simp [hasKey]
  | cons p r ih =>
    obtain ⟨k, v⟩ := p
    simp only [hasKey, Bool.or_eq_true, decide_eq_true_eq, ih, List.map_cons,
      List.mem_cons]
    constructor
    · rintro (h | h)
      · exact Or.inl h.symm
      · exact Or.inr h
    · rintro (h | h)
      · exact Or.inl h.symm
      · exact Or.inr h

theorem parseRecordLoopF_eq (k : Nat) (l : List Char) (line : Nat) (rec : Rec)
    (reg : List Str) :
    parseRecordLoopF (k + 1) l line rec reg =
      match parseFieldName l line with
      | none => if rec = [] then .error .eofErr else .ok (rec, [], line, reg)
      | some (f, d, rest, ln) =>
        if d = '\n' then parseRecordLoopF k rest ln rec reg
        else if d = '%' then .ok (rec, rest, ln, reg)
        else
          match parseFieldValue rest ln with
          | (v, e, rest2, ln2) =>
            if f ≠ [] ∧ v ≠ [] then
              if hasKey rec f then .error (.dup ln2 f)
              else
                if e then .ok (rec ++ [(f, v)], rest2, ln2,
                  if f ∈ reg then reg else reg ++ [f])
                else parseRecordLoopF k rest2 ln2 (rec ++ [(f, v)])
                  (if f ∈ reg then reg else reg ++ [f])
            else
              if e then .ok (rec, rest2, ln2, reg)
              else parseRecordLoopF k rest2 ln2 rec reg := rfl

theorem recOk_store {rec : Rec} {f v : Str} (hrec : RecOk rec) (hkey : KeyOk f)
    (hv : v ≠ []) (hvok : ValOk v) (hnk : hasKey rec f = false) :
    RecOk (rec ++ [(f, v)]) := by
  obtain ⟨h1, h2⟩ := hrec
  constructor
  · intro p hp
    rcases List.mem_append.mp hp with hp1 | hp2
    · exact h1 p hp1
    · simp only [List.mem_singleton] at hp2
      subst hp2
      exact ⟨hkey, hv, hvok⟩
  · rw [List.map_append]
    simp only [List.map_cons, List.map_nil]
    rw [List.nodup_append]
    refine ⟨h2, by simp, ?_⟩
    intro a ha hb
    simp only [List.mem_singleton] at hb
    subst hb
    have : hasKey rec a = true := hasKey_iff.mpr ha
    rw [hnk] at this
    exact Bool.false_ne_true this

theorem parseRecordLoopF_inv : ∀ (fuel : Nat) {l : List Char} {line : Nat}
    {rec : Rec} {reg : List Str} {rec2 : Rec} {rest : List Char} {ln : Nat}
    {reg2 : List Str},
    parseRecordLoopF fuel l line rec reg = .ok (rec2, rest, ln, reg2) →
    RecOk rec → RecOk rec2 := by
  intro fuel
  induction fuel with
  | zero =>
    intro l line rec reg rec2 rest ln reg2 h _
    exact absurd h (by simp [parseRecordLoopF])
  | succ k ih =>
    intro l line rec reg rec2 rest ln reg2 h hrec
    rw [parseRecordLoopF_eq] at h
    cases hpn : parseFieldName l line with
    | none =>
      simp only [hpn] at h
      by_cases hre : rec = []
      · rw [if_pos hre] at h
        exact absurd h (by simp)
      · rw [if_neg hre] at h
        simp only [Except.ok.injEq, Prod.mk.injEq] at h
        rw [← h.1]
        exact hrec
    | some q =>
      obtain ⟨f, d, rest0, ln0⟩ := q
      simp only [hpn] at h
      by_cases hd : d = '\n'
      · rw [if_pos hd] at h
        exact ih h hrec
      · rw [if_neg hd] at h
        by_cases hd2 : d = '%'
        · rw [if_pos hd2] at h
          simp only [Except.ok.injEq, Prod.mk.injEq] at h
          rw [← h.1]
          exact hrec
        · rw [if_neg hd2] at h
          cases hpv : parseFieldValue rest0 ln0 with
          | mk v q2 =>
            obtain ⟨e, rest2, ln2⟩ := q2
            simp only [hpv] at h
            have hvok : ValOk v := by
              have hv0 : ValOk (parseFieldValueF (rest0.length + 1) rest0 ln0
                  [] false true false).1 :=
                pfv_inv (rest0.length + 1) valOk_nil (by simp)
              unfold parseFieldValue at hpv
              rw [hpv] at hv0
              exact hv0
            by_cases hfv : f ≠ [] ∧ v ≠ []
            · rw [if_pos hfv] at h
              by_cases hk : hasKey rec f = true
              · rw [if_pos hk] at h
                exact absurd h (by simp)
              · rw [if_neg hk] at h
                simp only [Bool.not_eq_true] at hk
                have hkey : KeyOk f := by
                  rcases parseFieldName_inv hpn with h0 | h0
                  · exact absurd h0 hfv.1
                  · exact h0
                have hrec2 : RecOk (rec ++ [(f, v)]) :=
                  recOk_store hrec hkey hfv.2 hvok hk
                by_cases he : e = true
                · rw [if_pos he] at h
                  simp only [Except.ok.injEq, Prod.mk.injEq] at h
                  rw [← h.1]
                  exact hrec2
                · rw [if_neg he] at h
                  exact ih h hrec2
            · rw [if_neg hfv] at h
              by_cases he : e = true
              · rw [if_pos he] at h
                simp only [Except.ok.injEq, Prod.mk.injEq] at h
                rw [← h.1]
                exact hrec
              · rw [if_neg he] at h
                exact ih h hrec

theorem parseRecord_inv {l : List Char} {line : Nat} {reg : List Str} {rec : Rec}
    {rest : List Char} {ln : Nat} {rg : List Str}
    (h : parseRecord l line reg = .ok (some rec, rest, ln, rg)) : RecOk rec := by
  unfold parseRecord at h
  cases hlp : parseRecordLoopF (l.length + 1) l line [] reg with
  | error e => rw [hlp] at h; exact absurd h (by simp)
  | ok q =>
    obtain ⟨rec1, rest1, ln1, rg1⟩ := q
    simp only [hlp] at h
    by_cases hre : rec1 = []
    · rw [if_pos hre] at h
      simp at h
    · rw [if_neg hre] at h
      simp only [Except.ok.injEq, Prod.mk.injEq, Option.some.injEq] at h
      rw [← h.1]
      exact parseRecordLoopF_inv _ hlp recOk_nil

theorem ReadF_inv : ∀ (fuel : Nat) {l : List Char} {line : Nat} {reg : List Str}
    {rec : Rec} {rest : List Char} {ln : Nat} {rg : List Str},
    ReadF fuel l line reg = .ok (rec, rest, ln, rg) → RecOk rec := by
  intro fuel
  induction fuel with
  | zero =>
    intro l line reg rec rest ln rg h
    exact absurd h (by simp [ReadF])
  | succ k ih =>
    intro l line reg rec rest ln rg h
    unfold ReadF at h
    cases hp : parseRecord l line reg with
    | error e => rw [hp] at h; exact absurd h (by simp)
    | ok q =>
      obtain ⟨opt, rest1, ln1, rg1⟩ := q
      rw [hp] at h
      cases opt with
      | none => exact ih h
      | some rec1 =>
        simp only [Except.ok.injEq, Prod.mk.injEq] at h
        rw [← h.1]
        exact parseRecord_inv hp

end Stanza

namespace Stanza

theorem dropWhile_head_ns {v : Str} (h : ∀ c, v.head? = some c → isSpace c = false) :
    v.dropWhile isSpace = v := by
  match v with
  | [] => rfl
  | c :: t =>
    rw [List.dropWhile_cons]
    simp [h c rfl]

theorem dropWhile_rev_of_lastNS {v : Str} (hl : lastNS v) :
    v.reverse.dropWhile isSpace = v.reverse := by
  apply dropWhile_head_ns
  intro c hc
  apply hl
  rwa [← List.head?_reverse]

theorem trimSpace_of_ns {v : Str} (hh : ∀ c, v.head? = some c → isSpace c = false)
    (hl : lastNS v) : trimSpace v = v := by
  unfold trimSpace
  rw [dropWhile_head_ns hh, dropWhile_rev_of_lastNS hl, List.reverse_reverse]

/-- Invariant of fields of a record that writes back verbatim: the value is
already trimmed (non-space head). -/
def FieldOkW (p : Str × Str) : Prop :=
  KeyOk p.1 ∧ p.2 ≠ [] ∧ ValTail p.2 = true ∧ lastNS p.2 ∧
  (∀ c, p.2.head? = some c → isSpace c = false)

theorem valOk_trim_facts {v : Str} (hne : v ≠ []) (h : ValOk v) :
    (trimSpace v = v ∧ trimSpace v ≠ [] ∧ ValTail (trimSpace v) = true ∧
      lastNS (trimSpace v) ∧
      (∀ c, (trimSpace v).head? = some c → isSpace c = false)) ∨
    (∃ w, v = '\n' :: w ∧ trimSpace v = w ∧ w ≠ [] ∧ ValTail w = true ∧
      lastNS w ∧ (∀ c, w.head? = some c → isSpace c = false)) := by
  obtain ⟨hvt, hl, hh⟩ := h
  obtain ⟨c, w0, hw⟩ := List.exists_cons_of_ne_nil hne
  rcases hh c (by rw [hw]; rfl) with hns | hnl
  · left
    have hh2 : ∀ e, v.head? = some e → isSpace e = false := by
      intro e he
      rw [hw] at he
      injection he with he2
      rw [← he2]
      exact hns
    have ht := trimSpace_of_ns hh2 hl
    rw [ht]
    exact ⟨rfl, hne, hvt, hl, hh2⟩
  · right
    subst hnl
    subst hw
    have h1 : isSpace '\n' = true := by decide
    simp only [ValTail, h1, if_true, Bool.and_eq_true, Bool.or_eq_true,
      decide_eq_true_eq] at hvt
    obtain ⟨⟨_, hm⟩, hvt0⟩ := hvt
    match w0, hm, hvt0 with
    | c2 :: w', hm, hvt0 =>
      simp only [Bool.not_eq_true'] at hm
      have hw0head : ∀ e, (c2 :: w').head? = some e → isSpace e = false := by
        intro e he
        injection he with he2
        rw [← he2]
        exact hm
      have hw0l : lastNS (c2 :: w') := lastNS_tail hl (by simp)
      have htr : trimSpace ('\n' :: c2 :: w') = c2 :: w' := by
        unfold trimSpace
        rw [List.dropWhile_cons]
        simp only [h1, if_true]
        rw [dropWhile_head_ns hw0head, dropWhile_rev_of_lastNS hw0l,
          List.reverse_reverse]
      exact ⟨c2 :: w', rfl, htr, by simp, hvt0, hw0l, hw0head⟩

end Stanza

namespace Stanza

/-- The bytes `writeField` emits for one non-empty trimmed field. -/
def fieldBytes (p : Str × Str) : Str :=
  p.1 ++ (if utf8Len p.1 < 6 then [':', '\t'] else [':', ' ']) ++
    encodeVal p.2 ++ ['\r', '\n']

theorem writeField_trimmed {f v : Str} (hv : trimSpace v = v) (hne : v ≠ []) :
    writeField false f v = (fieldBytes (f, v), 1) := by
  unfold writeField fieldBytes
  simp only [hv, if_neg hne]

theorem writeMapAux_fields : ∀ (rec : Rec) (ok : List Str),
    (∀ p ∈ rec, normField p.1 = p.1 ∧ p.1 ∉ ok ∧ trimSpace p.2 = p.2 ∧
      p.2 ≠ [] ∧ p.1 ≠ []) →
    (rec.map Prod.fst).Nodup →
    writeMapAux false rec ok = ((rec.map fieldBytes).flatten, rec.length) := by
  intro rec
  induction rec with
  | nil => intro ok _ _; rfl
  | cons p r ih =>
    intro ok hp hnd
    obtain ⟨f, v⟩ := p
    obtain ⟨hn, hok, htr, hvne, hfne⟩ := hp (f, v) (by simp)
    simp only [writeMapAux, hn]
    rw [if_neg hfne, if_neg hok]
    rw [writeField_trimmed htr hvne]
    rw [ih (f :: ok) ?hrest ?hnd2]
    case hrest =>
      intro q hq
      obtain ⟨h1, h2, h3, h4, h5⟩ := hp q (by simp [hq])
      refine ⟨h1, ?_, h3, h4, h5⟩
      intro hmem
      rcases List.mem_cons.mp hmem with he | he
      · simp only [List.map_cons, List.nodup_cons] at hnd
        exact hnd.1 (he ▸ List.mem_map_of_mem Prod.fst hq)
      · exact h2 he
    case hnd2 =>
      simp only [List.map_cons, List.nodup_cons] at hnd
      exact hnd.2
    simp
    omega

theorem writeMap_fields {rec : Rec}
    (hp : ∀ p ∈ rec, normField p.1 = p.1 ∧ trimSpace p.2 = p.2 ∧
      p.2 ≠ [] ∧ p.1 ≠ [])
    (hnd : (rec.map Prod.fst).Nodup) (hne : rec ≠ []) :
    writeMap false rec = (rec.map fieldBytes).flatten ++ ['%', '%', '\r', '\n'] := by
  unfold writeMap
  rw [writeMapAux_fields rec [] (fun p hp2 => by
    obtain ⟨h1, h2, h3, h4⟩ := hp p hp2
    exact ⟨h1, by simp, h2, h3, h4⟩) hnd]
  simp only [gt_iff_lt]
  rw [if_pos (by simp [List.length_pos, hne])]

end Stanza

namespace Stanza

theorem notMem_left_of_nodup {a : Str} {u w : List Str}
    (hnd : (u ++ w).Nodup) (h : a ∈ w) : a ∉ u := by
  intro h1
  rw [List.nodup_append] at hnd
  exact hnd.2.2 h1 h

theorem parseRecordLoopF_fields : ∀ (rec : Rec) {acc : Rec} {reg : List Str}
    {line fuel : Nat},
    (∀ p ∈ rec, FieldOkW p) → ((acc ++ rec).map Prod.fst).Nodup →
    ((rec.map fieldBytes).flatten ++ ['%', '%', '\r', '\n']).length < fuel →
    ∃ ln2 reg2,
      parseRecordLoopF fuel ((rec.map fieldBytes).flatten ++ ['%', '%', '\r', '\n'])
        line acc reg = .ok (acc ++ rec, [], ln2, reg2) := by
  intro rec
  induction rec with
  | nil =>
    intro acc reg line fuel _ _ hfu
    obtain ⟨k, rfl⟩ : ∃ k, fuel = k + 1 := ⟨fuel - 1, by omega⟩
    simp only [List.map_nil, List.flatten_nil, List.nil_append] at hfu ⊢
    rw [parseRecordLoopF_eq]
    have hpn : parseFieldName ['%', '%', '\r', '\n'] line = some ([], '%', [], line + 1) := rfl
    simp only [hpn]
    rw [if_neg (by decide : ¬('%' : Char) = '\n'), if_pos trivial]
    exact ⟨line + 1, reg, by simp⟩
  | cons p r ih =>
    intro acc reg line fuel hok hnd hfu
    obtain ⟨f, v⟩ := p
    obtain ⟨hkey, hvne, hvt, hvl, hvh⟩ := hok (f, v) (by simp)
    obtain ⟨hkne, hkch, hkh1, hkh2, hklow, hknorm⟩ := hkey
    obtain ⟨sepc, hs1, hs2, hs3, hsEq⟩ :
        ∃ sepc, isSpace sepc = true ∧ sepc ≠ '\n' ∧ sepc ≠ '\r' ∧
          (if utf8Len f < 6 then [':', '\t'] else [':', ' ']) = [':', sepc] := by
      by_cases h6 : utf8Len f < 6
      · exact ⟨'\t', by decide, by decide, by decide, by rw [if_pos h6]⟩
      · exact ⟨' ', by decide, by decide, by decide, by rw [if_neg h6]⟩
    have hinput : (((f, v) :: r).map fieldBytes).flatten ++ ['%', '%', '\r', '\n']
        = f ++ ':' :: ((sepc :: encodeVal v) ++
            ('\r' :: '\n' :: ((r.map fieldBytes).flatten ++ ['%', '%', '\r', '\n']))) := by
      simp only [List.map_cons, List.flatten_cons, fieldBytes, hsEq,
        List.append_assoc, List.cons_append, List.nil_append]
    obtain ⟨k, rfl⟩ : ∃ k, fuel = k + 1 := ⟨fuel - 1, by omega⟩
    rw [hinput, parseRecordLoopF_eq]
    have hpn : parseFieldName (f ++ ':' :: ((sepc :: encodeVal v) ++
        ('\r' :: '\n' :: ((r.map fieldBytes).flatten ++ ['%', '%', '\r', '\n'])))) line
        = some (f.map Char.toLower, ':', (sepc :: encodeVal v) ++
            ('\r' :: '\n' :: ((r.map fieldBytes).flatten ++ ['%', '%', '\r', '\n'])),
            line) :=
      parseFieldName_word hkch hkne hkh1 hkh2
    simp only [hpn, hklow]
    rw [if_neg (by decide : ¬(':' : Char) = '\n'),
      if_neg (by decide : ¬(':' : Char) = '%')]
    have hfknotin : f ∉ acc.map Prod.fst := by
      apply notMem_left_of_nodup (w := ((f, v) :: r).map Prod.fst)
      · rw [← List.map_append]
        exact hnd
      · simp
    have hfk : hasKey acc f = false := by
      cases hk : hasKey acc f
      · rfl
      · exact absurd (hasKey_iff.mp hk) hfknotin
    cases r with
    | nil =>
      simp only [List.map_nil, List.flatten_nil, List.nil_append]
      have hpv : parseFieldValue
          (sepc :: encodeVal v ++ '\r' :: '\n' :: '%' :: '%' :: '\r' :: '\n' :: []) line
          = (v, true, [], line + v.count '\n' + 2) :=
        parseFieldValue_encoded_last hvt hvne hvh hs1 hs2 hs3
      simp only [hpv]
      rw [if_pos ⟨hkne, hvne⟩, if_neg (by rw [hfk]; simp), if_pos trivial]
      exact ⟨line + v.count '\n' + 2, if f ∈ reg then reg else reg ++ [f], rfl⟩
    | cons q r' =>
      obtain ⟨g, w⟩ := q
      have hgkey : KeyOk g := (hok (g, w) (by simp)).1
      obtain ⟨gc, g', hgw⟩ := List.exists_cons_of_ne_nil hgkey.1
      have hgc1 : isSpace gc = false := (hgkey.2.1 gc (by rw [hgw]; simp)).1
      have hgc2 : gc ≠ '#' := by
        intro he
        exact hgkey.2.2.1 (by rw [hgw, he]; rfl)
      have hgc3 : gc ≠ '%' := by
        intro he
        exact hgkey.2.2.2.1 (by rw [hgw, he]; rfl)
      obtain ⟨tail, hREST⟩ : ∃ tail,
          (((g, w) :: r').map fieldBytes).flatten ++ ['%', '%', '\r', '\n']
            = gc :: tail := by
        refine ⟨g' ++ ((if utf8Len g < 6 then [':', '\t'] else [':', ' ']) ++
          (encodeVal w ++ (['\r', '\n'] ++
            ((r'.map fieldBytes).flatten ++ ['%', '%', '\r', '\n'])))), ?_⟩
        simp only [List.map_cons, List.flatten_cons, fieldBytes, hgw,
          List.append_assoc, List.cons_append]
      rw [hREST]
      have hpv : parseFieldValue (sepc :: encodeVal v ++ '\r' :: '\n' :: gc :: tail) line
          = (v, false, gc :: tail, line + v.count '\n' + 1) :=
        parseFieldValue_encoded_mid hvt hvne hvh hs1 hs2 hs3 hgc1 hgc2 hgc3
      simp only [hpv]
      rw [if_pos ⟨hkne, hvne⟩, if_neg (by rw [hfk]; simp),
        if_neg (by simp : ¬(false = true))]
      rw [← hREST]
      have hok' : ∀ p ∈ (g, w) :: r', FieldOkW p := fun p hp => hok p (by simp [hp])
      have hnd' : (((acc ++ [(f, v)]) ++ (g, w) :: r').map Prod.fst).Nodup := by
        rw [List.append_assoc]
        simpa using hnd
      have hfu' : ((((g, w) :: r').map fieldBytes).flatten ++
          ['%', '%', '\r', '\n']).length < k := by
        rw [hinput] at hfu
        simp only [List.length_append, List.length_cons, List.map_cons,
          List.flatten_cons] at hfu ⊢
        omega
      have hgo2 : ∃ ln2 reg2, parseRecordLoopF k
          ((((g, w) :: r').map fieldBytes).flatten ++ ['%', '%', '\r', '\n'])
          (line + v.count '\n' + 1) (acc ++ [(f, v)])
          (if f ∈ reg then reg else reg ++ [f])
          = .ok ((acc ++ [(f, v)]) ++ (g, w) :: r', [], ln2, reg2) :=
        ih hok' hnd' hfu'
      obtain ⟨ln2, reg2, hgo⟩ := hgo2
      refine ⟨ln2, reg2, ?_⟩
      rw [hgo]
      simp

end Stanza

namespace Stanza

/-- One-step unfolding of `Read` exposing the first `parseRecord` call. -/
theorem Read_eq (l : List Char) (line : Nat) (reg : List Str) :
    Read l line reg = (match parseRecord l line reg with
      | .error e => .error e
      | .ok (none, rest, ln, rg) => ReadF l.length rest ln rg
      | .ok (some r, rest, ln, rg) => .ok (r, rest, ln, rg)) := rfl

/-- A record of trimmed, well-keyed fields reads back verbatim from its own
`writeMap` output. -/
theorem roundtrip_core {rec : Rec} (hok : ∀ p ∈ rec, FieldOkW p)
    (hnd : (rec.map Prod.fst).Nodup) (hne : rec ≠ []) :
    ∃ ln2 reg2, Read (writeMap false rec) 1 [] = .ok (rec, [], ln2, reg2) := by
  have hp : ∀ p ∈ rec, normField p.1 = p.1 ∧ trimSpace p.2 = p.2 ∧
      p.2 ≠ [] ∧ p.1 ≠ [] := by
    intro p hq
    obtain ⟨hk, h1, _, h3, h4⟩ := hok p hq
    exact ⟨hk.2.2.2.2.2, trimSpace_of_ns h4 h3, h1, hk.1⟩
  rw [writeMap_fields hp hnd hne]
  have hloop2 : ∃ ln2 reg2, parseRecordLoopF
      (((rec.map fieldBytes).flatten ++ ['%', '%', '\r', '\n']).length + 1)
      ((rec.map fieldBytes).flatten ++ ['%', '%', '\r', '\n']) 1 [] []
      = .ok ([] ++ rec, [], ln2, reg2) :=
    parseRecordLoopF_fields rec hok (by simpa using hnd) (by omega)
  obtain ⟨ln2, reg2, hloop⟩ := hloop2
  have hpr : parseRecord ((rec.map fieldBytes).flatten ++ ['%', '%', '\r', '\n'])
      1 [] = .ok (some rec, [], ln2, reg2) := by
    unfold parseRecord
    rw [hloop]
    simp [hne]
  exact ⟨ln2, reg2, by rw [Read_eq, hpr]⟩

/-- Record with every value replaced by its `strings.TrimSpace` image (the
transformation `writeField` applies before emitting a value). -/
def recTrim (rec : Rec) : Rec := rec.map (fun p => (p.1, trimSpace p.2))

theorem fieldOkW_trim {p : Str × Str} (h : FieldOk p) :
    FieldOkW (p.1, trimSpace p.2) := by
  obtain ⟨hk, hne, hvo⟩ := h
  rcases valOk_trim_facts hne hvo with ⟨_, h1, h2, h3, h4⟩ |
    ⟨w, _, htr, h1, h2, h3, h4⟩
  · exact ⟨hk, h1, h2, h3, h4⟩
  · rw [htr]
    exact ⟨hk, h1, h2, h3, h4⟩

theorem recTrim_okW {rec : Rec} (h : RecOk rec) :
    ∀ p ∈ recTrim rec, FieldOkW p := by
  intro p hp
  simp only [recTrim, List.mem_map] at hp
  obtain ⟨q, hq, rfl⟩ := hp
  exact fieldOkW_trim (h.1 q hq)

theorem recTrim_keys (rec : Rec) :
    (recTrim rec).map Prod.fst = rec.map Prod.fst := by
  simp [recTrim]

theorem recTrim_ne {rec : Rec} (h : rec ≠ []) : recTrim rec ≠ [] := by
  simp only [recTrim, ne_eq, List.map_eq_nil_iff]
  exact h

theorem trim_idem_of_fieldOk {p : Str × Str} (h : FieldOk p) :
    trimSpace (trimSpace p.2) = trimSpace p.2 := by
  have h2 := fieldOkW_trim h
  exact trimSpace_of_ns h2.2.2.2.2 h2.2.2.2.1

theorem writeField_pretrim (fe : Bool) (f v : Str)
    (h : trimSpace (trimSpace v) = trimSpace v) :
    writeField fe f (trimSpace v) = writeField fe f v := by
  unfold writeField
  rw [h]

theorem writeMapAux_pretrim : ∀ (rec : Rec) (ok : List Str),
    (∀ p ∈ rec, trimSpace (trimSpace p.2) = trimSpace p.2) →
    writeMapAux false (recTrim rec) ok = writeMapAux false rec ok := by
  intro rec
  induction rec with
  | nil => intro ok _; rfl
  | cons p r ih =>
    intro ok h
    obtain ⟨f, v⟩ := p
    have hr : ∀ q ∈ r, trimSpace (trimSpace q.2) = trimSpace q.2 :=
      fun q hq => h q (by simp [hq])
    show writeMapAux false ((f, trimSpace v) :: recTrim r) ok = _
    simp only [writeMapAux]
    by_cases h1 : normField f = []
    · rw [if_pos h1, if_pos h1]
      exact ih ok hr
    · rw [if_neg h1, if_neg h1]
      by_cases h2 : normField f ∈ ok
      · rw [if_pos h2, if_pos h2]
        exact ih ok hr
      · rw [if_neg h2, if_neg h2]
        rw [writeField_pretrim false (normField f) v (h (f, v) (by simp))]
        rw [ih (normField f :: ok) hr]

theorem writeMap_pretrim {rec : Rec}
    (h : ∀ p ∈ rec, trimSpace (trimSpace p.2) = trimSpace p.2) :
    writeMap false (recTrim rec) = writeMap false rec := by
  unfold writeMap
  rw [writeMapAux_pretrim rec [] h]

end Stanza

namespace Stanza

/-- C1 (counterexample to the literal claim): the record read from
`"f:\n x\n%%\n"` has the value `"\nx"`, which contains no whitespace run of
length two; yet writing it and reading the result back yields `"x"` — the
leading newline is dropped by the writer's `strings.TrimSpace`, a change the
claim's "up to normalization of whitespace runs to single spaces" does not
allow, so the values are not equal up to that normalization. -/
theorem c1_counterexample :
    Read ['f', ':', '\n', ' ', 'x', '\n', '%', '%', '\n'] 1 [] =
      .ok ([(['f'], ['\n', 'x'])], [], 4, [['f']]) ∧
    Read (Write false [] [(['f'], ['\n', 'x'])]) 1 [] =
      .ok ([(['f'], ['x'])], [], 3, [['f']]) ∧
    (¬ ∃ c, ['\n', 'x'] = [c] ∧ isSpace c = true) ∧
    (['\n', 'x'] : Str) ≠ ['x'] := by
  refine ⟨rfl, rfl, ?_, by decide⟩
  rintro ⟨c, hc, _⟩
  have hlen := congrArg List.length hc
  simp at hlen

/-- C1 (amended): for any record produced by `Read`, writing it with the
default writer (`Write` with no configured fields) and reading the bytes back
succeeds and yields the record with every key unchanged and every value
replaced by its `strings.TrimSpace` image; since `Read`-produced values are
already whitespace-collapsed and end in a non-space, this trim can only drop
a single leading newline (each value is either unchanged or loses exactly one
leading `'\n'`).  A second write-read round trip reproduces the trimmed
record exactly, so the transformation is idempotent after one round trip. -/
theorem c1_round_trip {l : List Char} {line : Nat} {reg : List Str}
    {rec : Rec} {rest : List Char} {ln : Nat} {rg : List Str}
    (h : Read l line reg = .ok (rec, rest, ln, rg)) :
    ∃ ln2 reg2 ln3 reg3,
      Read (Write false [] rec) 1 [] = .ok (recTrim rec, [], ln2, reg2) ∧
      Read (Write false [] (recTrim rec)) 1 [] = .ok (recTrim rec, [], ln3, reg3) ∧
      (recTrim rec).map Prod.fst = rec.map Prod.fst ∧
      recTrim (recTrim rec) = recTrim rec ∧
      (∀ p ∈ rec, trimSpace p.2 = p.2 ∨
        ∃ w, p.2 = '\n' :: w ∧ trimSpace p.2 = w) := by
  have hro : RecOk rec := ReadF_inv _ h
  have hne : rec ≠ [] := ReadF_ok h
  have hokW := recTrim_okW hro
  have hndT : ((recTrim rec).map Prod.fst).Nodup := by
    rw [recTrim_keys]
    exact hro.2
  obtain ⟨ln2, reg2, h1⟩ := roundtrip_core hokW hndT (recTrim_ne hne)
  have hW1 : Write false [] rec = writeMap false rec := by
    unfold Write
    rw [if_pos rfl]
  have hW2 : Write false [] (recTrim rec) = writeMap false (recTrim rec) := by
    unfold Write
    rw [if_pos rfl]
  have hpre : writeMap false (recTrim rec) = writeMap false rec :=
    writeMap_pretrim (fun p hp => trim_idem_of_fieldOk (hro.1 p hp))
  have hidem : recTrim (recTrim rec) = recTrim rec := by
    unfold recTrim
    rw [List.map_map]
    apply List.map_congr_left
    intro p hp
    show (p.1, trimSpace (trimSpace p.2)) = (p.1, trimSpace p.2)
    rw [trim_idem_of_fieldOk (hro.1 p hp)]
  refine ⟨ln2, reg2, ln2, reg2, ?_, ?_, recTrim_keys rec, hidem, ?_⟩
  · rw [hW1, ← hpre]
    exact h1
  · rw [hW2]
    exact h1
  · intro p hp
    rcases valOk_trim_facts (hro.1 p hp).2.1 (hro.1 p hp).2.2 with
      ⟨he, _⟩ | ⟨w, hv, htr, _⟩
    · exact Or.inl he
    · exact Or.inr ⟨w, hv, htr⟩

theorem c1_witness :
    ∃ ln2 reg2 ln3 reg3,
      Read (Write false [] [(['f'], ['\n', 'x'])]) 1 [] =
        .ok (recTrim [(['f'], ['\n', 'x'])], [], ln2, reg2) ∧
      Read (Write false [] (recTrim [(['f'], ['\n', 'x'])])) 1 [] =
        .ok (recTrim [(['f'], ['\n', 'x'])], [], ln3, reg3) ∧
      (recTrim [(['f'], ['\n', 'x'])]).map Prod.fst =
        [(['f'], ['\n', 'x'])].map Prod.fst ∧
      recTrim (recTrim [(['f'], ['\n', 'x'])]) = recTrim [(['f'], ['\n', 'x'])] ∧
      (∀ p ∈ [(['f'], ['\n', 'x'])], trimSpace p.2 = p.2 ∨
        ∃ w, p.2 = '\n' :: w ∧ trimSpace p.2 = w) :=
  c1_round_trip (show Read ['f', ':', '\n', ' ', 'x', '\n', '%', '%', '\n'] 1 []
    = .ok ([(['f'], ['\n', 'x'])], [], 4, [['f']]) from rfl)

end Stanza
